import Mathlib

/-!
Ozette: the directory browser projection and the dialog input state machine.

A shallow embedding of `src/browser/browser.cpp` (the tree-to-list projection of
`Browser`) and of `src/ui/dialog.cpp` (the input/suggestion state machine of
`UI::Dialog`), followed by theorems about them.

Conventions of the embedding.

* `std::string` is a `List Char`, one `Char` per `char`; `size()` is `length`,
  `substr(0, n)` is `take n`, `push_back` appends one element.
* `std::set<std::string>` is a `Finset Str`.
* `std::vector<row_t>` is a `List row_t`; a `DirTree *` held by a row is the node
  itself (the tree is never mutated by the code embedded here).
* `size_t` and `unsigned` values are `Nat`. Every index the code computes is at most
  one past the size of a vector or string held in memory, and a row of indent `d` is
  only ever created by `d` nested activations of `insert_rows`, so none of the
  arithmetic embedded here can reach the width of the machine type.
* A subscript or iterator outside its container (undefined behaviour in the C++
  source) and a thrown `std::out_of_range` are the result `none`.
* Calls that only paint (`ctx.repaint()`, `ctx.set_title`, curses output) are dropped;
  calls into host callbacks are recorded in order as `HostCall`s.
-/

namespace Ozette

/-- The type `std::string`. -/
abbrev Str := List Char

/-! ## Key codes -/

namespace Control

/-- `Control::Backspace` of `app/control.h`. -/
def Backspace : Int := 0x08
/-- `Control::Enter` of `app/control.h`. -/
def Enter : Int := 0x0A
/-- `Control::Return` of `app/control.h`. -/
def Return : Int := 0x0D
/-- `Control::Escape` of `app/control.h`. -/
def Escape : Int := 0x1B
/-- `Control::Close` of `app/control.h`. -/
def Close : Int := 0x17

end Control

/-- The curses key code `KEY_DOWN` (octal 0402). -/
def KEY_DOWN : Int := 258
/-- The curses key code `KEY_UP` (octal 0403). -/
def KEY_UP : Int := 259
/-- The curses key code `KEY_LEFT` (octal 0404). -/
def KEY_LEFT : Int := 260
/-- The curses key code `KEY_RIGHT` (octal 0405). -/
def KEY_RIGHT : Int := 261
/-- The curses key code `KEY_DC` (octal 0512), delete-forward. -/
def KEY_DC : Int := 330

/-! ## The tree source -/

/-- Modelled from the spec: `DirTree::Type`, declared in `dirtree.h`, which is not
among the sources; the specification gives a node the kinds File and Directory. -/
inductive Kind where
  | File
  | Directory
deriving DecidableEq, Repr

/-- Modelled from the spec: the class `DirTree`, declared in `dirtree.h`, which is not
among the sources. A node has a path, a name, a kind, a modification time and an
ordered sequence of child nodes; the browser only reads it. -/
inductive DirTree where
  | mk (path : Str) (name : Str) (type : Kind) (mtime : Nat) (items : List DirTree)

namespace DirTree

/-- The accessor `DirTree::path()`. -/
def path : DirTree → Str
  | mk p _ _ _ _ => p

/-- The accessor `DirTree::name()`. -/
def name : DirTree → Str
  | mk _ n _ _ _ => n

/-- The accessor `DirTree::type()`. -/
def type : DirTree → Kind
  | mk _ _ k _ _ => k

/-- The accessor `DirTree::mtime()`. -/
def mtime : DirTree → Nat
  | mk _ _ _ m _ => m

/-- The accessor `DirTree::items()`: the ordered children. -/
def items : DirTree → List DirTree
  | mk _ _ _ _ i => i

/-- The test `DirTree::is_directory()`. -/
def is_directory (t : DirTree) : Bool := decide (t.type = Kind.Directory)

/-- The test `DirTree::is_file()`. -/
def is_file (t : DirTree) : Bool := decide (t.type = Kind.File)

end DirTree

/-! ## The browser -/

/-- The struct `Browser::row_t`: `{indent, expanded, entry}`. -/
structure row_t where
  indent : Nat
  expanded : Bool
  entry : DirTree

/-- The members of `Browser` that the projection code reads and writes. -/
structure Browser where
  _tree : DirTree
  _list : List row_t
  _expanded_items : Finset Str
  _selection : Nat
  _name_filter : Str
  _rebuild_list : Bool

/-- The call `_list.insert(_list.begin() + index, display)`. -/
def vector_insert (list : List row_t) (index : Nat) (display : row_t) : List row_t :=
  list.take index ++ display :: list.drop index

mutual
/-- The method `Browser::insert_rows(index, indent, entry)`: the loop over
`entry->items()`. The vector is threaded through; the result is the new vector and the
returned index. -/
def insert_rows (expanded_items : Finset Str) (list : List row_t) (index indent : Nat) :
    DirTree → List row_t × Nat
  | .mk _ _ _ _ items => insert_rows_loop expanded_items list index indent items
/-- The body of the `for (auto &item: entry->items())` loop of `Browser::insert_rows`,
run over the items that are left. -/
def insert_rows_loop (expanded_items : Finset Str) (list : List row_t) (index indent : Nat) :
    List DirTree → List row_t × Nat
  | [] => (list, index)
  | item :: rest =>
    let expand := decide (item.path ∈ expanded_items)
    let list1 := vector_insert list index ⟨indent, expand, item⟩
    let r := if expand then insert_rows expanded_items list1 (index + 1) (indent + 1) item
             else (list1, index + 1)
    insert_rows_loop expanded_items r.1 r.2 indent rest
end

/-- The method `Browser::remove_rows(index, indent)`: erase the rows from `index` on
while their indent is at least `indent`. -/
def remove_rows (list : List row_t) (index indent : Nat) : List row_t :=
  list.take index ++ (list.drop index).dropWhile (fun r => decide (r.indent ≥ indent))

/-- The method `Browser::clear_filter`. -/
def clear_filter (b : Browser) : Browser :=
  if b._name_filter.isEmpty then b else { b with _name_filter := [] }

/-- The method `Browser::matches_filter(index)`. -/
def matches_filter (b : Browser) (index : Nat) : Bool :=
  if h : index < b._list.length then
    decide ((b._list[index]).entry.name.take b._name_filter.length = b._name_filter)
  else false

/-- The method `Browser::build_list`. -/
def build_list (b : Browser) : Browser :=
  let list := (insert_rows b._expanded_items [] 0 0 b._tree).1
  let list := if list.isEmpty then [⟨0, false, b._tree⟩] else list
  { b with _list := list, _selection := min b._selection list.length }

/-- The method `Browser::toggle`. The result is `none` when `_list[_selection]` is a
subscript outside the vector. -/
def toggle (b : Browser) : Option Browser :=
  let b := clear_filter b
  match b._list[b._selection]? with
  | none => none
  | some display =>
    if !display.entry.is_directory then some b
    else if display.expanded then
      let list := b._list.set b._selection { display with expanded := false }
      some { b with
        _expanded_items := b._expanded_items.erase display.entry.path
        _list := remove_rows list (b._selection + 1) (display.indent + 1) }
    else
      let expanded_items := insert display.entry.path b._expanded_items
      let list := b._list.set b._selection { display with expanded := true }
      some { b with
        _expanded_items := expanded_items
        _list := (insert_rows expanded_items list (b._selection + 1)
                    (display.indent + 1) display.entry).1 }

/-- The method `Browser::key_up`. -/
def key_up (b : Browser) : Browser :=
  let b := clear_filter b
  if 0 = b._selection then b else { b with _selection := b._selection - 1 }

/-- The method `Browser::key_down`. -/
def key_down (b : Browser) : Browser :=
  let b := clear_filter b
  if b._selection + 1 = b._list.length then b else { b with _selection := b._selection + 1 }

/-- The loop `for (size_t i = _selection; i > 0; --i)` of `Browser::key_left`, at the
value `i` of the loop variable. -/
def key_left_loop (b : Browser) : Nat → Browser
  | 0 => b
  | i + 1 => if matches_filter b i then { b with _selection := i } else key_left_loop b i

/-- The method `Browser::key_left`. -/
def key_left (b : Browser) : Browser :=
  if b._selection = 0 then b else key_left_loop b b._selection

/-- The loop `for (size_t i = ...; i < _list.size(); ++i)` shared by `Browser::key_right`
and `Browser::key_char`, at the value `i` of the loop variable; `n` is the number of
iterations left before `i` reaches `_list.size()`. -/
def scan_forward (b : Browser) : Nat → Nat → Browser
  | 0, _ => b
  | n + 1, i =>
    if matches_filter b i then { b with _selection := i } else scan_forward b n (i + 1)

/-- The method `Browser::key_right`. -/
def key_right (b : Browser) : Browser :=
  scan_forward b (b._list.length - (b._selection + 1)) (b._selection + 1)

/-- The method `Browser::key_char`. -/
def key_char (b : Browser) (ch : Char) : Browser :=
  let b := { b with _name_filter := b._name_filter ++ [ch] }
  scan_forward b (b._list.length - b._selection) b._selection

/-- A call of `toggle` with the selection placed on row `s` of the list; `none` when the
list has no row `s`. -/
def toggle_at (b : Browser) (s : Nat) : Option Browser :=
  if s < b._list.length then toggle { b with _selection := s } else none

/-- A sequence of `toggle` calls, the selection placed on the given rows in turn; `none`
when one of the selections is not a row of the list at its turn. -/
def toggles (b : Browser) : List Nat → Option Browser
  | [] => some b
  | s :: rest => (toggle_at b s).bind (fun b1 => toggles b1 rest)

/-! ## The projection in the specification's words -/

/-- The pure list of rows that `insert_rows` splices in for a forest of items: each item
at `indent`, followed by the rows of its own items when its path is in the set. -/
def forest_rows (expanded_items : Finset Str) : Nat → List DirTree → List row_t
  | _, [] => []
  | indent, .mk p n k m items :: rest =>
    (⟨indent, decide (p ∈ expanded_items), .mk p n k m items⟩ ::
      (if p ∈ expanded_items then forest_rows expanded_items (indent + 1) items else []))
    ++ forest_rows expanded_items indent rest

/-- Every node of a forest in pre-order, with its depth (the forest's own items at
`depth`) and the paths of its ancestors inside the forest. -/
def preorder : Nat → List Str → List DirTree → List (DirTree × Nat × List Str)
  | _, _, [] => []
  | depth, ancestors, .mk p n k m items :: rest =>
    ((.mk p n k m items, depth, ancestors) :: preorder (depth + 1) (p :: ancestors) items)
    ++ preorder depth ancestors rest

/-- The flat projection as the specification words it: the pre-order traversal of the
nodes below the root all of whose ancestors below the root are in the expansion-state
set, each with its depth below the root (the root's children at depth 0). -/
def visible_nodes (expanded_items : Finset Str) (root : DirTree) : List (DirTree × Nat) :=
  ((preorder 0 [] root.items).filter
    (fun x => x.2.2.all (fun a => decide (a ∈ expanded_items)))).map (fun x => (x.1, x.2.1))

mutual
/-- The paths of a node and of all the nodes below it, in pre-order. -/
def tree_paths : DirTree → List Str
  | .mk p _ _ _ items => p :: forest_paths items
/-- The paths of all the nodes of a forest, in pre-order. -/
def forest_paths : List DirTree → List Str
  | [] => []
  | t :: rest => tree_paths t ++ forest_paths rest
end

/-! ## The dialog -/

/-- Modelled from the spec: the struct `UI::Dialog::Layout`, declared in `dialog.h`, which
is not among the sources: prompt, value, show_value, options and the optional callbacks
commit, yes and no. A callback field is `true` when the callback is set; what a callback
does belongs to the host. -/
structure Layout where
  prompt : Str
  value : Str
  show_value : Bool
  options : List Str
  commit : Bool
  yes : Bool
  no : Bool

/-- A call from the dialog into its host, with the string passed. -/
inductive HostCall where
  | show_result (message : Str)
  | commit (value : Str)
  | yes (value : Str)
  | no (value : Str)
deriving DecidableEq, Repr

/-- The members of `UI::Dialog` that the input state machine reads and writes. The
mode FieldEditing is `_suggestion_selected = false`; the mode SuggestionSelected(i) is
`_suggestion_selected = true` with `_sugg_item = i`. -/
structure Dialog where
  _layout : Layout
  _suggestion_selected : Bool
  _sugg_item : Nat
  _cursor_pos : Nat
  _repaint : Bool

/-- What one call of `UI::Dialog::process` leaves behind: the value returned (`true` to
go on, `false` when the dialog is finished), the dialog, and the host calls made. -/
structure Outcome where
  result : Bool
  dialog : Dialog
  calls : List HostCall

/-- Modelled from the spec: the default member initialisers of `UI::Dialog`, declared in
`dialog.h`, which is not among the sources. The specification starts a dialog in
FieldEditing unless the constructor selects a suggestion. -/
def Dialog.members (layout : Layout) : Dialog :=
  { _layout := layout, _suggestion_selected := false, _sugg_item := 0, _cursor_pos := 0,
    _repaint := true }

/-- The constructor `UI::Dialog::Dialog(layout)`. -/
def Dialog.new (layout : Layout) : Dialog :=
  let d := Dialog.members layout
  let d :=
    if d._layout.value.isEmpty && !d._layout.options.isEmpty then
      { d with
        _suggestion_selected := true
        _sugg_item := 0
        _layout := { d._layout with value := d._layout.options.headD [] } }
    else d
  { d with _cursor_pos := d._layout.value.length }

/-- The method `UI::Dialog::paint`, as far as the state goes: it clears `_repaint`. -/
def paint (d : Dialog) : Dialog := { d with _repaint := false }

/-- The method `UI::Dialog::set_value`. -/
def set_value (d : Dialog) (val : Str) : Dialog :=
  if val = d._layout.value then d
  else { d with _layout := { d._layout with value := val }, _repaint := true }

/-- The method `UI::Dialog::select_field`. -/
def select_field (d : Dialog) : Dialog :=
  if !d._suggestion_selected then d
  else { d with
    _suggestion_selected := false
    _cursor_pos := d._layout.value.length
    _repaint := true }

/-- The method `UI::Dialog::select_suggestion(i)`. -/
def select_suggestion (d : Dialog) (i : Nat) : Dialog :=
  if h : i < d._layout.options.length then
    if d._suggestion_selected && decide (d._sugg_item = i) then d
    else
      set_value { d with _suggestion_selected := true, _sugg_item := i, _repaint := true }
        (d._layout.options[i])
  else d

/-- The method `UI::Dialog::arrow_left`. -/
def arrow_left (d : Dialog) : Dialog :=
  if d._suggestion_selected then
    let d := select_field d
    { d with _cursor_pos := d._layout.value.length }
  else { d with _cursor_pos := d._cursor_pos - min d._cursor_pos 1, _repaint := true }

/-- The method `UI::Dialog::arrow_right`. -/
def arrow_right (d : Dialog) : Dialog :=
  if d._suggestion_selected then
    let d := select_field d
    { d with _cursor_pos := 0 }
  else if d._cursor_pos < d._layout.value.length then
    { d with _cursor_pos := d._cursor_pos + 1, _repaint := true }
  else d

/-- The method `UI::Dialog::arrow_up`. -/
def arrow_up (d : Dialog) : Dialog :=
  if !d._suggestion_selected then d
  else if d._sugg_item > 0 then select_suggestion d (d._sugg_item - 1)
  else select_field d

/-- The method `UI::Dialog::arrow_down`. -/
def arrow_down (d : Dialog) : Dialog :=
  if d._suggestion_selected then select_suggestion d (d._sugg_item + 1)
  else select_suggestion d 0

/-- The method `UI::Dialog::delete_prev`. The result is `none` when the iterator handed
to `erase` lies outside the string. -/
def delete_prev (d : Dialog) : Option Dialog :=
  let d := select_field d
  if d._layout.value.isEmpty then some d
  else if d._cursor_pos = 0 then some d
  else
    let pos := d._cursor_pos - 1
    if pos < d._layout.value.length then
      some { d with
        _cursor_pos := pos
        _layout := { d._layout with value := d._layout.value.eraseIdx pos }
        _repaint := true }
    else none

/-- The method `UI::Dialog::delete_next`. -/
def delete_next (d : Dialog) : Dialog :=
  let d := select_field d
  if d._layout.value.isEmpty then d
  else if d._cursor_pos ≥ d._layout.value.length then d
  else
    { d with
      _layout := { d._layout with value := d._layout.value.eraseIdx d._cursor_pos }
      _repaint := true }

/-- The method `UI::Dialog::key_insert(ch)`. The result is `none` when `std::string::insert`
throws because the position is past the end of the string. -/
def key_insert (d : Dialog) (ch : Int) : Option Dialog :=
  let d := select_field d
  if d._cursor_pos ≤ d._layout.value.length then
    some { d with
      _layout := { d._layout with
        value := d._layout.value.take d._cursor_pos ++
          Char.ofNat ch.toNat :: d._layout.value.drop d._cursor_pos }
      _cursor_pos := d._cursor_pos + 1
      _repaint := true }
  else none

/-- The end of `UI::Dialog::process` after the `switch`: paint if asked to, return true. -/
def process_end (d : Dialog) : Outcome :=
  ⟨true, if d._repaint then paint d else d, []⟩

/-- The method `UI::Dialog::process(ctx, ch)`. -/
def process (d : Dialog) (ch : Int) : Option Outcome :=
  if ch = Control.Escape ∨ ch = Control.Close then
    some ⟨false, d, [HostCall.show_result "Cancelled".toList]⟩
  else if ch = Control.Return ∨ ch = Control.Enter then
    if !d._layout.show_value then some (process_end d)
    else some ⟨false, d, if d._layout.commit then [HostCall.commit d._layout.value] else []⟩
  else if ch = KEY_LEFT then some (process_end (arrow_left d))
  else if ch = KEY_RIGHT then some (process_end (arrow_right d))
  else if ch = KEY_UP then some (process_end (arrow_up d))
  else if ch = KEY_DOWN then some (process_end (arrow_down d))
  else if ch = Control.Backspace then (delete_prev d).map process_end
  else if ch = KEY_DC then some (process_end (delete_next d))
  else if ch < 32 ∨ ch > 127 then some (process_end d)
  else if ch ≥ 48 ∧ ch ≤ 57 ∧ d._suggestion_selected = true then
    let d := select_suggestion d (ch - 48).toNat
    some ⟨false, d, if d._layout.commit then [HostCall.commit d._layout.value] else []⟩
  else if !d._layout.show_value && decide (ch = 89 ∨ ch = 121) then
    some ⟨false, d, if d._layout.yes then [HostCall.yes d._layout.value] else []⟩
  else if !d._layout.show_value && decide (ch = 78 ∨ ch = 110) then
    some ⟨false, d, if d._layout.no then [HostCall.no d._layout.value] else []⟩
  else (key_insert d ch).map process_end

/-! ## Words of the specification and example states -/

/-- Row `j` of the list exists and its name has `filter` as a literal prefix. -/
def name_starts_with (list : List row_t) (filter : Str) (j : Nat) : Bool :=
  match list[j]? with
  | some r => decide (filter <+: r.entry.name)
  | none => false

/-- A file node without children. -/
def file_node (path name : String) : DirTree :=
  .mk path.toList name.toList Kind.File 0 []

/-- A directory node. -/
def dir_node (path name : String) (items : List DirTree) : DirTree :=
  .mk path.toList name.toList Kind.Directory 0 items

/-- A browser that has not built its list yet. -/
def fresh_browser (tree : DirTree) (expanded_items : Finset Str) (selection : Nat) : Browser :=
  { _tree := tree, _list := [], _expanded_items := expanded_items, _selection := selection,
    _name_filter := [], _rebuild_list := true }

/-- A directory holding the files apple, banana and avocado, in that order. -/
def fruit_tree : DirTree :=
  dir_node "/f" "f" [file_node "/f/apple" "apple", file_node "/f/banana" "banana",
    file_node "/f/avocado" "avocado"]

/-- The browser on `fruit_tree` after `build_list`, selection on row 0. -/
def fruit_browser : Browser := build_list (fresh_browser fruit_tree ∅ 0)

/-- A directory `a` holding the file `x` and the directory `s` with the file `y`. -/
def nested_dir : DirTree :=
  dir_node "/r/a" "a" [file_node "/r/a/x" "x", dir_node "/r/a/s" "s" [file_node "/r/a/s/y" "y"]]

/-- A directory `/r` holding the directory `nested_dir` and a file `b`. -/
def nested_tree : DirTree :=
  dir_node "/r" "r" [nested_dir, file_node "/r/b" "b"]

/-- The browser on `nested_tree` with `/r/a` and `/r/a/s` expanded, after `build_list`. -/
def nested_browser : Browser :=
  build_list (fresh_browser nested_tree {"/r/a".toList, "/r/a/s".toList} 0)

/-- A directory without children. -/
def empty_tree : DirTree := dir_node "/e" "e" []

/-- A layout with an empty value and the suggestions main.cpp and main.rs. -/
def main_layout : Layout :=
  { prompt := "Open".toList, value := [], show_value := true,
    options := ["main.cpp".toList, "main.rs".toList], commit := true, yes := false, no := false }

/-- The dialog built from `main_layout` with the second suggestion selected. -/
def main_dialog_second : Dialog := arrow_down (Dialog.new main_layout)

/-- One session of the dialog: the host hands the events to `process` one by one for as
long as it returns true; the result is the dialog as the last event processed left it,
and `none` when `process` has no result. -/
def dialog_run (d : Dialog) : List Int → Option Dialog
  | [] => some d
  | ch :: rest =>
    match process d ch with
    | none => none
    | some o => if o.result then dialog_run o.dialog rest else some o.dialog

/-- In field editing the cursor is inside the value or at its end. -/
def cursor_in_bounds (d : Dialog) : Prop :=
  d._suggestion_selected = false → d._cursor_pos ≤ d._layout.value.length

/-- With a suggestion selected, the index is one of the options and the value is that
option. -/
def suggestion_mirrors (d : Dialog) : Prop :=
  d._suggestion_selected = true → d._layout.options[d._sugg_item]? = some d._layout.value

/-- Row `y` may follow row `x`: its indent is at most that of `x`, or one more when `x` is
marked expanded. -/
def indent_step (x y : row_t) : Prop :=
  y.indent ≤ x.indent ∨ (y.indent = x.indent + 1 ∧ x.expanded = true)

/-- A layout with an empty value and the suggestions a, b and c. -/
def abc_layout : Layout :=
  { prompt := "Pick".toList, value := [], show_value := true,
    options := [['a'], ['b'], ['c']], commit := true, yes := false, no := false }

/-- A yes/no layout: the value is not shown, there are no suggestions. -/
def yes_no_layout : Layout :=
  { prompt := "Save".toList, value := [], show_value := false,
    options := [], commit := false, yes := true, no := true }

/-! ## Lemmas on the embedding -/

theorem vector_insert_length (list : List row_t) (index : Nat) (r : row_t)
    (h : index ≤ list.length) : (vector_insert list index r).length = list.length + 1 := by
  simp [vector_insert]; omega

theorem vector_insert_take (list : List row_t) (index : Nat) (r : row_t)
    (h : index ≤ list.length) :
    (vector_insert list index r).take (index + 1) = list.take index ++ [r] := by
  unfold vector_insert
  rw [List.take_append_eq_append_take]
  simp [List.length_take, Nat.min_eq_left h]

theorem vector_insert_drop (list : List row_t) (index : Nat) (r : row_t)
    (h : index ≤ list.length) :
    (vector_insert list index r).drop (index + 1) = list.drop index := by
  unfold vector_insert
  rw [List.drop_append_eq_append_drop]
  simp [List.length_take, Nat.min_eq_left h]

mutual
/-- The method `insert_rows` splices the rows of the entry's items in at `index`. -/
theorem insert_rows_eq (exp : Finset Str) : ∀ (t : DirTree) (list : List row_t)
    (index indent : Nat), index ≤ list.length →
    insert_rows exp list index indent t =
      (list.take index ++ forest_rows exp indent t.items ++ list.drop index,
        index + (forest_rows exp indent t.items).length)
  | .mk _ _ _ _ items, list, index, indent, h => by
    simp only [insert_rows, DirTree.items]
    exact insert_rows_loop_eq exp items list index indent h
/-- The loop of `insert_rows` splices the rows of the items left in at `index`. -/
theorem insert_rows_loop_eq (exp : Finset Str) : ∀ (items : List DirTree) (list : List row_t)
    (index indent : Nat), index ≤ list.length →
    insert_rows_loop exp list index indent items =
      (list.take index ++ forest_rows exp indent items ++ list.drop index,
        index + (forest_rows exp indent items).length)
  | [], list, index, indent, _ => by
    simp [insert_rows_loop, forest_rows]
  | .mk p n k m its :: rest, list, index, indent, h => by
    rw [insert_rows_loop]
    by_cases hp : p ∈ exp
    · simp only [DirTree.path, hp, decide_True, if_true]
      rw [insert_rows_eq exp (.mk p n k m its) _ (index + 1) (indent + 1)
        (by rw [vector_insert_length _ _ _ h]; omega)]
      simp only [DirTree.items]
      rw [insert_rows_loop_eq exp rest _ _ indent (by
        simp only [List.length_append, vector_insert_take _ _ _ h, vector_insert_drop _ _ _ h,
          List.length_take, List.length_drop, List.length_singleton]
        omega)]
      simp only [vector_insert_take _ _ _ h, vector_insert_drop _ _ _ h, forest_rows, hp,
        decide_True, if_true]
      have hl : ∀ x : row_t, (List.take index list ++ [x] ++
          forest_rows exp (indent + 1) its).length
          = index + 1 + (forest_rows exp (indent + 1) its).length := by
        intro x; simp [List.length_take, Nat.min_eq_left h]; omega
      rw [List.take_left' (hl _), List.drop_left' (hl _)]
      simp [Nat.add_assoc]
      omega
    · simp only [DirTree.path, hp, decide_False, Bool.false_eq_true, if_false]
      rw [insert_rows_loop_eq exp rest _ _ indent (by
        rw [vector_insert_length _ _ _ h]; omega)]
      simp only [vector_insert_take _ _ _ h, vector_insert_drop _ _ _ h, forest_rows, hp,
        decide_False, if_false]
      simp [Nat.add_assoc]
      omega
end

theorem clear_filter_name_filter (b : Browser) : (clear_filter b)._name_filter = [] := by
  unfold clear_filter
  split
  · rename_i h; simpa using h
  · rfl

theorem clear_filter_list (b : Browser) : (clear_filter b)._list = b._list := by
  unfold clear_filter; split <;> rfl

theorem clear_filter_selection (b : Browser) : (clear_filter b)._selection = b._selection := by
  unfold clear_filter; split <;> rfl

theorem clear_filter_expanded_items (b : Browser) :
    (clear_filter b)._expanded_items = b._expanded_items := by
  unfold clear_filter; split <;> rfl

theorem clear_filter_tree (b : Browser) : (clear_filter b)._tree = b._tree := by
  unfold clear_filter; split <;> rfl

/-- The list that `build_list` leaves: the rows of the root's items, or the placeholder. -/
theorem build_list_list (b : Browser) :
    (build_list b)._list =
      if (forest_rows b._expanded_items 0 b._tree.items).isEmpty then [⟨0, false, b._tree⟩]
      else forest_rows b._expanded_items 0 b._tree.items := by
  have h := insert_rows_eq b._expanded_items b._tree [] 0 0 (Nat.le_refl _)
  simp only [List.take_nil, List.drop_nil, List.nil_append, List.append_nil] at h
  simp only [build_list, h]

/-! ## Rebuilding the list -/

/-- C4: `build_list` clamps the selection to the length of the list, not to the last index.
On a directory holding two files, rebuilt with the previous selection 5, the list has two
rows and the selection is 2, one past the last row; on a directory without children,
rebuilt with the previous selection 3, the list is the placeholder row alone (indent 0,
not expanded) and the selection is 1. -/
theorem build_list_selection_past_the_end :
    (build_list (fresh_browser (dir_node "/d" "d" [file_node "/d/a" "a", file_node "/d/b" "b"])
        ∅ 5))._list.length = 2 ∧
    (build_list (fresh_browser (dir_node "/d" "d" [file_node "/d/a" "a", file_node "/d/b" "b"])
        ∅ 5))._selection = 2 ∧
    (build_list (fresh_browser empty_tree ∅ 3))._list = [⟨0, false, empty_tree⟩] ∧
    (build_list (fresh_browser empty_tree ∅ 3))._selection = 1 := by
  refine ⟨?_, ?_, ?_, ?_⟩ <;> rfl

/-! ## Moving the selection -/

/-- C8: with the selection on a row of the list, `key_up` moves it one row up unless it is
on row 0, `key_down` moves it one row down unless it is on the last row (neither wraps
around); afterwards the name filter is empty, and the list, the expansion-state set and
the tree are the same. -/
theorem key_up_down_move_selection (b : Browser) (h : b._selection < b._list.length) :
    (key_up b)._selection = (if b._selection > 0 then b._selection - 1 else 0) ∧
    (key_down b)._selection =
      (if b._selection + 1 < b._list.length then b._selection + 1 else b._list.length - 1) ∧
    (key_up b)._name_filter = [] ∧ (key_down b)._name_filter = [] ∧
    (key_up b)._list = b._list ∧ (key_down b)._list = b._list ∧
    (key_up b)._expanded_items = b._expanded_items ∧
    (key_down b)._expanded_items = b._expanded_items ∧
    (key_up b)._tree = b._tree ∧ (key_down b)._tree = b._tree := by
  have hs := clear_filter_selection b
  have hl := clear_filter_list b
  have hf := clear_filter_name_filter b
  have he := clear_filter_expanded_items b
  have ht := clear_filter_tree b
  refine ⟨?_, ?_, ?_, ?_, ?_, ?_, ?_, ?_, ?_, ?_⟩
  · simp only [key_up, hs]
    by_cases h0 : b._selection = 0
    · simp [h0, hs]
    · have : ¬ (0 = b._selection) := fun e => h0 e.symm
      simp [this, Nat.pos_of_ne_zero h0]
  · simp only [key_down, hs, hl]
    by_cases h1 : b._selection + 1 = b._list.length
    · simp [h1, hs]; omega
    · have : b._selection + 1 < b._list.length := by omega
      simp [h1, this]
  · simp only [key_up]; split <;> simp [hf]
  · simp only [key_down]; split <;> simp [hf]
  · simp only [key_up]; split <;> simp [hl]
  · simp only [key_down]; split <;> simp [hl]
  · simp only [key_up]; split <;> simp [he]
  · simp only [key_down]; split <;> simp [he]
  · simp only [key_up]; split <;> simp [ht]
  · simp only [key_down]; split <;> simp [ht]

/-- C8, witness: on the three rows apple, banana, avocado, `key_up` from row 0 stays on
row 0 and `key_down` from row 0 goes to row 1. -/
theorem key_up_down_move_selection_witness :
    fruit_browser._selection < fruit_browser._list.length ∧
    (key_up fruit_browser)._selection = 0 ∧ (key_down fruit_browser)._selection = 1 :=
  ⟨by decide, (key_up_down_move_selection fruit_browser (by decide)).1,
    (key_up_down_move_selection fruit_browser (by decide)).2.1⟩

/-! ## Incremental search -/

/-- The test `matches_filter` is the prefix test of the specification. -/
theorem matches_filter_eq (b : Browser) (j : Nat) :
    matches_filter b j = name_starts_with b._list b._name_filter j := by
  unfold matches_filter name_starts_with
  by_cases h : j < b._list.length
  · simp only [h, dite_true, List.getElem?_eq_getElem h]
    by_cases hp : b._name_filter <+: (b._list[j]).entry.name
    · have := List.prefix_iff_eq_take.mp hp
      simp [hp, ← this]
    · have : ¬ (List.take b._name_filter.length (b._list[j]).entry.name = b._name_filter) :=
        fun e => hp (List.prefix_iff_eq_take.mpr e.symm)
      simp [hp, this]
  · simp only [h, dite_false]
    rw [List.getElem?_eq_none (by omega)]

theorem name_starts_with_lt {list : List row_t} {filter : Str} {j : Nat}
    (h : name_starts_with list filter j = true) : j < list.length := by
  unfold name_starts_with at h
  by_contra hn
  rw [List.getElem?_eq_none (by omega)] at h
  simp at h

/-- What the forward loop of `key_right` and `key_char` computes. -/
theorem scan_forward_spec (b : Browser) : ∀ (n i : Nat),
    (∃ j, i ≤ j ∧ j < i + n ∧ matches_filter b j = true ∧
        (∀ k, i ≤ k → k < j → matches_filter b k = false) ∧
        scan_forward b n i = { b with _selection := j }) ∨
    ((∀ k, i ≤ k → k < i + n → matches_filter b k = false) ∧ scan_forward b n i = b)
  | 0, i => Or.inr ⟨fun k h1 h2 => by omega, rfl⟩
  | n + 1, i => by
    by_cases hm : matches_filter b i = true
    · left
      exact ⟨i, Nat.le_refl _, by omega, hm, fun k h1 h2 => by omega, by simp [scan_forward, hm]⟩
    · have hm' : matches_filter b i = false := by simpa using hm
      rcases scan_forward_spec b n (i + 1) with ⟨j, h1, h2, h3, h4, h5⟩ | ⟨h1, h2⟩
      · left
        refine ⟨j, by omega, by omega, h3, ?_, by simp [scan_forward, hm', h5]⟩
        intro k hk1 hk2
        by_cases hki : k = i
        · rw [hki]; exact hm'
        · exact h4 k (by omega) hk2
      · right
        refine ⟨?_, by simp [scan_forward, hm', h2]⟩
        intro k hk1 hk2
        by_cases hki : k = i
        · rw [hki]; exact hm'
        · exact h1 k (by omega) (by omega)

/-- What the backward loop of `key_left` computes. -/
theorem key_left_loop_spec (b : Browser) : ∀ (i : Nat),
    (∃ j, j < i ∧ matches_filter b j = true ∧
        (∀ k, j < k → k < i → matches_filter b k = false) ∧
        key_left_loop b i = { b with _selection := j }) ∨
    ((∀ k, k < i → matches_filter b k = false) ∧ key_left_loop b i = b)
  | 0 => Or.inr ⟨fun k h => by omega, rfl⟩
  | i + 1 => by
    by_cases hm : matches_filter b i = true
    · left
      exact ⟨i, by omega, hm, fun k h1 h2 => by omega, by simp [key_left_loop, hm]⟩
    · have hm' : matches_filter b i = false := by simpa using hm
      rcases key_left_loop_spec b i with ⟨j, h1, h2, h3, h4⟩ | ⟨h1, h2⟩
      · left
        refine ⟨j, by omega, h2, ?_, by simp [key_left_loop, hm', h4]⟩
        intro k hk1 hk2
        by_cases hki : k = i
        · rw [hki]; exact hm'
        · exact h3 k hk1 (by omega)
      · right
        refine ⟨?_, by simp [key_left_loop, hm', h2]⟩
        intro k hk
        by_cases hki : k = i
        · rw [hki]; exact hm'
        · exact h1 k (by omega)

/-- C6: `key_char` appends the character to the name filter and moves the selection to
the first row at or after the selection whose name has the new filter as a literal prefix;
when there is no such row the selection stays and the filter has grown all the same. The
list, the expansion-state set and the tree are the same. -/
theorem key_char_filter_advance (b : Browser) (ch : Char) :
    (key_char b ch)._name_filter = b._name_filter ++ [ch] ∧
    (key_char b ch)._list = b._list ∧
    (key_char b ch)._expanded_items = b._expanded_items ∧
    (key_char b ch)._tree = b._tree ∧
    (∀ j, b._selection ≤ j → name_starts_with b._list (b._name_filter ++ [ch]) j = true →
      (∀ k < j, b._selection ≤ k → name_starts_with b._list (b._name_filter ++ [ch]) k = false) →
      (key_char b ch)._selection = j) ∧
    ((∀ j, b._selection ≤ j → name_starts_with b._list (b._name_filter ++ [ch]) j = false) →
      (key_char b ch)._selection = b._selection) := by
  have hsc := scan_forward_spec { b with _name_filter := b._name_filter ++ [ch] }
    (b._list.length - b._selection) b._selection
  simp only [matches_filter_eq] at hsc
  rcases hsc with ⟨j, h1, h2, h3, h4, h5⟩ | ⟨h1, h2⟩
  · have hk : key_char b ch =
        { b with _name_filter := b._name_filter ++ [ch], _selection := j } := h5
    rw [hk]
    refine ⟨rfl, rfl, rfl, rfl, ?_, ?_⟩
    · intro j' hj1 hj2 hj3
      show j = j'
      rcases Nat.lt_trichotomy j j' with hlt | heq | hgt
      · have := hj3 j hlt h1
        rw [this] at h3; exact absurd h3 (by simp)
      · exact heq
      · have := h4 j' hj1 hgt
        rw [this] at hj2; exact absurd hj2 (by simp)
    · intro hno
      have := hno j h1
      rw [this] at h3; exact absurd h3 (by simp)
  · have hk : key_char b ch = { b with _name_filter := b._name_filter ++ [ch] } := h2
    rw [hk]
    refine ⟨rfl, rfl, rfl, rfl, ?_, ?_⟩
    · intro j' hj1 hj2 _
      have hlt := name_starts_with_lt hj2
      have := h1 j' hj1 (by omega)
      rw [this] at hj2; exact absurd hj2 (by simp)
    · intro _; rfl

/-- C6, witness: on the rows apple, banana, avocado with the selection on row 0, typing
`a` keeps the selection on apple (row 0) and typing `v` next, the filter now being `av`,
moves it to avocado (row 2). -/
theorem key_char_filter_advance_witness :
    (key_char fruit_browser 'a')._selection = 0 ∧
    (key_char (key_char fruit_browser 'a') 'v')._name_filter = ['a', 'v'] ∧
    (key_char (key_char fruit_browser 'a') 'v')._selection = 2 :=
  ⟨(key_char_filter_advance fruit_browser 'a').2.2.2.2.1 0 (by decide) (by decide) (by decide),
    (key_char_filter_advance (key_char fruit_browser 'a') 'v').1,
    (key_char_filter_advance (key_char fruit_browser 'a') 'v').2.2.2.2.1 2 (by decide)
      (by decide) (by decide)⟩

/-- C7: `key_left` moves the selection to the last row before it whose name has the
current filter as a prefix, `key_right` to the first such row after it; the row under the
selection is not a candidate, and without such a row the selection stays. Both leave the
filter, the list, the expansion-state set and the tree alone. -/
theorem key_left_right_filter_seek (b : Browser) :
    (∀ j < b._selection, name_starts_with b._list b._name_filter j = true →
      (∀ k < b._selection, j < k → name_starts_with b._list b._name_filter k = false) →
      (key_left b)._selection = j) ∧
    ((∀ j < b._selection, name_starts_with b._list b._name_filter j = false) →
      (key_left b)._selection = b._selection) ∧
    (∀ j, b._selection < j → name_starts_with b._list b._name_filter j = true →
      (∀ k < j, b._selection < k → name_starts_with b._list b._name_filter k = false) →
      (key_right b)._selection = j) ∧
    ((∀ j, b._selection < j → name_starts_with b._list b._name_filter j = false) →
      (key_right b)._selection = b._selection) ∧
    (key_left b)._name_filter = b._name_filter ∧ (key_right b)._name_filter = b._name_filter ∧
    (key_left b)._list = b._list ∧ (key_right b)._list = b._list ∧
    (key_left b)._expanded_items = b._expanded_items ∧
    (key_right b)._expanded_items = b._expanded_items ∧
    (key_left b)._tree = b._tree ∧ (key_right b)._tree = b._tree := by
  have hl := key_left_loop_spec b b._selection
  have hr := scan_forward_spec b (b._list.length - (b._selection + 1)) (b._selection + 1)
  simp only [matches_filter_eq] at hl hr
  have hleft : key_left b = key_left_loop b b._selection := by
    unfold key_left
    split
    · rename_i h0; rw [h0]; rfl
    · rfl
  have hright : key_right b =
      scan_forward b (b._list.length - (b._selection + 1)) (b._selection + 1) := rfl
  rw [hleft, hright]
  have left_part :
      (∀ j < b._selection, name_starts_with b._list b._name_filter j = true →
        (∀ k < b._selection, j < k → name_starts_with b._list b._name_filter k = false) →
        (key_left_loop b b._selection)._selection = j) ∧
      ((∀ j < b._selection, name_starts_with b._list b._name_filter j = false) →
        (key_left_loop b b._selection)._selection = b._selection) ∧
      (key_left_loop b b._selection)._name_filter = b._name_filter ∧
      (key_left_loop b b._selection)._list = b._list ∧
      (key_left_loop b b._selection)._expanded_items = b._expanded_items ∧
      (key_left_loop b b._selection)._tree = b._tree := by
    rcases hl with ⟨j, h1, h2, h3, h4⟩ | ⟨h1, h2⟩
    · rw [h4]
      refine ⟨?_, ?_, rfl, rfl, rfl, rfl⟩
      · intro j' hj1 hj2 hj3
        show j = j'
        rcases Nat.lt_trichotomy j j' with hlt | heq | hgt
        · have := h3 j' hlt hj1
          rw [this] at hj2; exact absurd hj2 (by simp)
        · exact heq
        · have := hj3 j h1 hgt
          rw [this] at h2; exact absurd h2 (by simp)
      · intro hno
        have := hno j h1
        rw [this] at h2; exact absurd h2 (by simp)
    · rw [h2]
      refine ⟨?_, fun _ => rfl, rfl, rfl, rfl, rfl⟩
      intro j' hj1 hj2 _
      have := h1 j' hj1
      rw [this] at hj2; exact absurd hj2 (by simp)
  have right_part :
      (∀ j, b._selection < j → name_starts_with b._list b._name_filter j = true →
        (∀ k < j, b._selection < k → name_starts_with b._list b._name_filter k = false) →
        (scan_forward b (b._list.length - (b._selection + 1)) (b._selection + 1))._selection
          = j) ∧
      ((∀ j, b._selection < j → name_starts_with b._list b._name_filter j = false) →
        (scan_forward b (b._list.length - (b._selection + 1)) (b._selection + 1))._selection
          = b._selection) ∧
      (scan_forward b (b._list.length - (b._selection + 1)) (b._selection + 1))._name_filter
        = b._name_filter ∧
      (scan_forward b (b._list.length - (b._selection + 1)) (b._selection + 1))._list
        = b._list ∧
      (scan_forward b (b._list.length - (b._selection + 1)) (b._selection + 1))._expanded_items
        = b._expanded_items ∧
      (scan_forward b (b._list.length - (b._selection + 1)) (b._selection + 1))._tree
        = b._tree := by
    rcases hr with ⟨j, h1, h2, h3, h4, h5⟩ | ⟨h1, h2⟩
    · rw [h5]
      refine ⟨?_, ?_, rfl, rfl, rfl, rfl⟩
      · intro j' hj1 hj2 hj3
        show j = j'
        rcases Nat.lt_trichotomy j j' with hlt | heq | hgt
        · have := hj3 j hlt (by omega)
          rw [this] at h3; exact absurd h3 (by simp)
        · exact heq
        · have := h4 j' (by omega) hgt
          rw [this] at hj2; exact absurd hj2 (by simp)
      · intro hno
        have := hno j (by omega)
        rw [this] at h3; exact absurd h3 (by simp)
    · rw [h2]
      refine ⟨?_, fun _ => rfl, rfl, rfl, rfl, rfl⟩
      intro j' hj1 hj2 _
      have hlt := name_starts_with_lt hj2
      have := h1 j' (by omega) (by omega)
      rw [this] at hj2; exact absurd hj2 (by simp)
  exact ⟨left_part.1, left_part.2.1, right_part.1, right_part.2.1, left_part.2.2.1,
    right_part.2.2.1, left_part.2.2.2.1, right_part.2.2.2.1, left_part.2.2.2.2.1,
    right_part.2.2.2.2.1, left_part.2.2.2.2.2, right_part.2.2.2.2.2⟩

/-- C7, witness: on the rows apple, banana, avocado with the filter `a`, `key_right` from
apple (row 0) goes to avocado (row 2), and `key_left` from avocado goes back to apple;
`key_right` from avocado stays there. -/
theorem key_left_right_filter_seek_witness :
    (key_right (key_char fruit_browser 'a'))._selection = 2 ∧
    (key_left (key_right (key_char fruit_browser 'a')))._selection = 0 ∧
    (key_right (key_right (key_char fruit_browser 'a')))._selection = 2 :=
  ⟨(key_left_right_filter_seek (key_char fruit_browser 'a')).2.2.1 2 (by decide) (by decide)
      (by decide),
    (key_left_right_filter_seek (key_right (key_char fruit_browser 'a'))).1 0 (by decide)
      (by decide) (by decide),
    (key_left_right_filter_seek (key_right (key_char fruit_browser 'a'))).2.2.2.1
      (fun j hj => by
        have h2 : (key_right (key_char fruit_browser 'a'))._selection = 2 := by decide
        have h3 : (key_right (key_char fruit_browser 'a'))._list.length = 3 := by decide
        rw [h2] at hj
        cases hv : name_starts_with (key_right (key_char fruit_browser 'a'))._list
            (key_right (key_char fruit_browser 'a'))._name_filter j with
        | false => rfl
        | true => have := name_starts_with_lt hv; omega)⟩

/-! ## The dialog: construction and Backspace -/

/-- C9: a dialog built from a layout with an empty value and at least one option starts
with suggestion 0 selected and the value equal to the first option; built from any other
layout it starts in field editing with the value of the layout and the cursor at the end
of the value. -/
theorem dialog_new_initial_state (layout : Layout) :
    (layout.value = [] ∧ layout.options ≠ [] →
      (Dialog.new layout)._suggestion_selected = true ∧
      (Dialog.new layout)._sugg_item = 0 ∧
      layout.options[0]? = some (Dialog.new layout)._layout.value ∧
      (Dialog.new layout)._layout.options = layout.options) ∧
    (¬ (layout.value = [] ∧ layout.options ≠ []) →
      (Dialog.new layout)._suggestion_selected = false ∧
      (Dialog.new layout)._layout.value = layout.value ∧
      (Dialog.new layout)._cursor_pos = layout.value.length ∧
      (Dialog.new layout)._layout.options = layout.options) := by
  constructor
  · rintro ⟨hv, ho⟩
    cases hopt : layout.options with
    | nil => exact absurd hopt ho
    | cons o rest =>
      simp [Dialog.new, Dialog.members, hv, hopt]
  · intro h
    by_cases hv : layout.value = []
    · have ho : layout.options = [] := by
        by_contra hne; exact h ⟨hv, hne⟩
      simp [Dialog.new, Dialog.members, hv, ho]
    · have hv' : layout.value.isEmpty = false := by
        cases hval : layout.value with
        | nil => exact absurd hval hv
        | cons c cs => rfl
      simp [Dialog.new, Dialog.members, hv']

/-- C9, witness: the empty value with the options main.cpp and main.rs gives suggestion 0
selected and the value main.cpp. -/
theorem dialog_new_initial_state_witness :
    (main_layout.value = [] ∧ main_layout.options ≠ []) ∧
    (Dialog.new main_layout)._suggestion_selected = true ∧
    (Dialog.new main_layout)._sugg_item = 0 ∧
    main_layout.options[0]? = some (Dialog.new main_layout)._layout.value ∧
    (Dialog.new main_layout)._layout.value = "main.cpp".toList :=
  ⟨by decide, ((dialog_new_initial_state main_layout).1 (by decide)).1,
    ((dialog_new_initial_state main_layout).1 (by decide)).2.1,
    ((dialog_new_initial_state main_layout).1 (by decide)).2.2.1, by decide⟩

/-- C10, counterexample: with the suggestion main.rs selected (index 1), Backspace leaves
field editing with the value main.r: the last character is deleted on that same event. -/
theorem backspace_on_suggestion_deletes :
    main_dialog_second._suggestion_selected = true ∧
    main_dialog_second._sugg_item = 1 ∧
    main_dialog_second._layout.value = "main.rs".toList ∧
    (process main_dialog_second Control.Backspace).map (fun o => o.dialog._layout.value)
      = some "main.r".toList ∧
    (process main_dialog_second Control.Backspace).map (fun o => o.dialog._suggestion_selected)
      = some false := by
  refine ⟨?_, ?_, ?_, ?_, ?_⟩ <;> decide

/-- C10, amended: from a selected suggestion, Backspace switches to field editing and on
that same event deletes the last character of the value (so the value is the same only
when it was empty); the cursor is at the end of the new value, the options are the same,
no host call is made and `process` returns true. -/
theorem backspace_on_suggestion (d : Dialog) (h : d._suggestion_selected = true) :
    ∃ o, process d Control.Backspace = some o ∧ o.result = true ∧ o.calls = [] ∧
      o.dialog._suggestion_selected = false ∧
      o.dialog._layout.value = d._layout.value.dropLast ∧
      o.dialog._cursor_pos = o.dialog._layout.value.length ∧
      o.dialog._layout.options = d._layout.options := by
  have hp : process d Control.Backspace = (delete_prev d).map process_end := by
    simp [process, Control.Backspace, Control.Escape, Control.Close, Control.Return,
      Control.Enter, KEY_LEFT, KEY_RIGHT, KEY_UP, KEY_DOWN]
  have hs : select_field d = { d with
      _suggestion_selected := false
      _cursor_pos := d._layout.value.length
      _repaint := true } := by
    simp [select_field, h]
  rw [hp]
  cases hv : d._layout.value with
  | nil =>
    refine ⟨process_end (select_field d), ?_, ?_⟩
    · simp [delete_prev, hs, hv]
    · simp [process_end, paint, hs, hv]
  | cons c cs =>
    refine ⟨process_end { select_field d with
        _cursor_pos := (select_field d)._cursor_pos - 1
        _layout := { (select_field d)._layout with
          value := (select_field d)._layout.value.eraseIdx ((select_field d)._cursor_pos - 1) }
        _repaint := true }, ?_, ?_⟩
    · simp [delete_prev, hs, hv]
    · simp [process_end, paint, hs, hv, List.dropLast_eq_take, List.eraseIdx_eq_take_drop_succ]

/-- C10, witness: Backspace on the selected suggestion main.rs. -/
theorem backspace_on_suggestion_witness :
    main_dialog_second._suggestion_selected = true ∧
    ∃ o, process main_dialog_second Control.Backspace = some o ∧ o.result = true ∧
      o.calls = [] ∧ o.dialog._suggestion_selected = false ∧
      o.dialog._layout.value = main_dialog_second._layout.value.dropLast ∧
      o.dialog._cursor_pos = o.dialog._layout.value.length ∧
      o.dialog._layout.options = main_dialog_second._layout.options :=
  ⟨by decide, backspace_on_suggestion main_dialog_second (by decide)⟩

/-! ## Toggle -/

theorem splice_length (l : List row_t) (s : Nat) (x : row_t) (h : s < l.length) :
    (l.take s ++ x :: l.drop (s + 1)).length = l.length := by
  simp [List.length_take, List.length_drop]; omega

theorem splice_take (l : List row_t) (s : Nat) (x : row_t) (h : s < l.length) :
    (l.take s ++ x :: l.drop (s + 1)).take (s + 1) = l.take s ++ [x] := by
  have hl : (l.take s ++ [x]).length = s + 1 := by
    simp [List.length_take]; omega
  have : l.take s ++ x :: l.drop (s + 1) = (l.take s ++ [x]) ++ l.drop (s + 1) := by simp
  rw [this, List.take_left' hl]

theorem splice_drop (l : List row_t) (s : Nat) (x : row_t) (h : s < l.length) :
    (l.take s ++ x :: l.drop (s + 1)).drop (s + 1) = l.drop (s + 1) := by
  have hl : (l.take s ++ [x]).length = s + 1 := by
    simp [List.length_take]; omega
  have : l.take s ++ x :: l.drop (s + 1) = (l.take s ++ [x]) ++ l.drop (s + 1) := by simp
  rw [this, List.drop_left' hl]

/-- What `toggle` does when the selection is on a row of the list. -/
theorem toggle_eq (b : Browser) (h : b._selection < b._list.length) :
    toggle b = some (
      if !(b._list[b._selection]).entry.is_directory then clear_filter b
      else if (b._list[b._selection]).expanded then
        { clear_filter b with
          _expanded_items := b._expanded_items.erase (b._list[b._selection]).entry.path
          _list := b._list.take b._selection ++
            { b._list[b._selection] with expanded := false } ::
            (b._list.drop (b._selection + 1)).dropWhile
              (fun r => decide (r.indent ≥ (b._list[b._selection]).indent + 1)) }
      else
        { clear_filter b with
          _expanded_items := insert (b._list[b._selection]).entry.path b._expanded_items
          _list := b._list.take b._selection ++
            { b._list[b._selection] with expanded := true } ::
            (forest_rows (insert (b._list[b._selection]).entry.path b._expanded_items)
                ((b._list[b._selection]).indent + 1) (b._list[b._selection]).entry.items ++
              b._list.drop (b._selection + 1)) }) := by
  have hget : (clear_filter b)._list[(clear_filter b)._selection]? = some (b._list[b._selection]) := by
    rw [clear_filter_selection]
    simp only [clear_filter_list]
    exact List.getElem?_eq_getElem h
  unfold toggle
  simp only [hget]
  by_cases hd : (b._list[b._selection]).entry.is_directory = true
  · simp only [hd, Bool.not_true, Bool.false_eq_true, if_false]
    by_cases he : (b._list[b._selection]).expanded = true
    · simp only [he, if_true, clear_filter_list, clear_filter_selection,
        clear_filter_expanded_items, remove_rows, List.set_eq_take_append_cons_drop, h,
        splice_take _ _ _ h, splice_drop _ _ _ h]
      simp
    · simp only [he, if_false, clear_filter_list, clear_filter_selection,
        clear_filter_expanded_items, List.set_eq_take_append_cons_drop, h, if_true]
      rw [insert_rows_eq _ _ _ _ _ (by rw [splice_length _ _ _ h]; omega)]
      simp only [splice_take _ _ _ h, splice_drop _ _ _ h]
      simp
  · simp [hd]

/-- The rows that `dropWhile` skips form a run at the front that cannot be made longer. -/
theorem dropWhile_eq_drop (p : row_t → Bool) : ∀ (l : List row_t),
    ∃ k, k ≤ l.length ∧ l.dropWhile p = l.drop k ∧
      (∀ j, j < k → ∃ r, l[j]? = some r ∧ p r = true) ∧
      (∀ r, l[k]? = some r → p r = false)
  | [] => ⟨0, Nat.le_refl _, rfl, fun j hj => by omega, fun r hr => by simp at hr⟩
  | x :: xs => by
    by_cases hx : p x = true
    · obtain ⟨k, h1, h2, h3, h4⟩ := dropWhile_eq_drop p xs
      refine ⟨k + 1, by simp; omega, by simp [List.dropWhile_cons, hx, h2], ?_, ?_⟩
      · intro j hj
        cases j with
        | zero => exact ⟨x, by simp, hx⟩
        | succ j => simpa using h3 j (by omega)
      · intro r hr
        exact h4 r (by simpa using hr)
    · refine ⟨0, Nat.zero_le _, by simp [List.dropWhile_cons, hx], fun j hj => by omega, ?_⟩
      intro r hr
      simp at hr
      rw [← hr]; simpa using hx

/-- C2: `toggle` on a row that is an expanded directory removes the rows that follow it
as long as their indent is greater than its own, a run that cannot be made longer; the
rows before it, the row itself but for its expanded flag, now false, and the rows after
the run stay as they are and in order. The expansion-state set loses the path of the row
and nothing else, so every other path is a member after exactly when it was before. -/
theorem toggle_collapse_removes_run (b : Browser) (h : b._selection < b._list.length)
    (hd : (b._list[b._selection]).entry.is_directory = true)
    (he : (b._list[b._selection]).expanded = true) :
    ∃ b1 k, toggle b = some b1 ∧
      b._selection + 1 + k ≤ b._list.length ∧
      (∀ j, j < k → ∃ r, b._list[b._selection + 1 + j]? = some r ∧
        r.indent > (b._list[b._selection]).indent) ∧
      (∀ r, b._list[b._selection + 1 + k]? = some r →
        r.indent ≤ (b._list[b._selection]).indent) ∧
      b1._list = b._list.take b._selection ++
        { b._list[b._selection] with expanded := false } ::
        b._list.drop (b._selection + 1 + k) ∧
      b1._expanded_items = b._expanded_items.erase (b._list[b._selection]).entry.path ∧
      (∀ q, q ≠ (b._list[b._selection]).entry.path →
        (q ∈ b1._expanded_items ↔ q ∈ b._expanded_items)) ∧
      b1._selection = b._selection ∧ b1._tree = b._tree := by
  obtain ⟨k, h1, h2, h3, h4⟩ := dropWhile_eq_drop
    (fun r => decide (r.indent ≥ (b._list[b._selection]).indent + 1))
    (b._list.drop (b._selection + 1))
  rw [toggle_eq b h]
  simp only [hd, he, Bool.not_true, Bool.false_eq_true, if_false, if_true]
  refine ⟨_, k, rfl, ?_, ?_, ?_, ?_, rfl, ?_, ?_, ?_⟩
  · simp only [List.length_drop] at h1; omega
  · intro j hj
    obtain ⟨r, hr1, hr2⟩ := h3 j hj
    refine ⟨r, ?_, ?_⟩
    · simpa [List.getElem?_drop] using hr1
    · simp only [decide_eq_true_eq] at hr2; omega
  · intro r hr
    have := h4 r (by simpa [List.getElem?_drop] using hr)
    simp only [decide_eq_false_iff_not] at this; omega
  · simp only [h2, List.drop_drop]
  · intro q hq
    simp [Finset.mem_erase, hq]
  · exact clear_filter_selection b
  · exact clear_filter_tree b

/-- C2, witness: in the browser on `nested_tree` with `/r/a` and `/r/a/s` expanded (rows
a, x, s, y, b), collapsing row 0 leaves the rows a and b. -/
theorem toggle_collapse_removes_run_witness :
    ∃ (h : nested_browser._selection < nested_browser._list.length),
      (nested_browser._list[nested_browser._selection]).entry.is_directory = true ∧
      (nested_browser._list[nested_browser._selection]).expanded = true ∧
      (toggle nested_browser).map (fun b => b._list.map (fun r => (r.indent, r.expanded,
        r.entry.name))) = some [(0, false, ['a']), (0, false, ['b'])] ∧
      ∃ b1 k, toggle nested_browser = some b1 ∧
        nested_browser._selection + 1 + k ≤ nested_browser._list.length ∧
        (∀ j, j < k → ∃ r, nested_browser._list[nested_browser._selection + 1 + j]? = some r ∧
          r.indent > (nested_browser._list[nested_browser._selection]).indent) ∧
        (∀ r, nested_browser._list[nested_browser._selection + 1 + k]? = some r →
          r.indent ≤ (nested_browser._list[nested_browser._selection]).indent) ∧
        b1._list = nested_browser._list.take nested_browser._selection ++
          { nested_browser._list[nested_browser._selection] with expanded := false } ::
          nested_browser._list.drop (nested_browser._selection + 1 + k) ∧
        b1._expanded_items =
          nested_browser._expanded_items.erase
            (nested_browser._list[nested_browser._selection]).entry.path ∧
        (∀ q, q ≠ (nested_browser._list[nested_browser._selection]).entry.path →
          (q ∈ b1._expanded_items ↔ q ∈ nested_browser._expanded_items)) ∧
        b1._selection = nested_browser._selection ∧ b1._tree = nested_browser._tree :=
  ⟨by decide, by decide, by decide, by decide,
    toggle_collapse_removes_run nested_browser (by decide) (by decide) (by decide)⟩

/-! ## The selection stays on a row -/

theorem matches_filter_lt {b : Browser} {j : Nat} (h : matches_filter b j = true) :
    j < b._list.length := by
  rw [matches_filter_eq] at h
  exact name_starts_with_lt h

/-- C5: when the selection is on a row of the list, it still is after any one of `key_up`,
`key_down`, `key_left`, `key_right`, `key_char` and `toggle`. -/
theorem selection_stays_in_range (b : Browser) (ch : Char)
    (h : b._selection < b._list.length) :
    (key_up b)._selection < (key_up b)._list.length ∧
    (key_down b)._selection < (key_down b)._list.length ∧
    (key_left b)._selection < (key_left b)._list.length ∧
    (key_right b)._selection < (key_right b)._list.length ∧
    (key_char b ch)._selection < (key_char b ch)._list.length ∧
    ∃ b1, toggle b = some b1 ∧ b1._selection < b1._list.length := by
  have hs := clear_filter_selection b
  have hl := clear_filter_list b
  refine ⟨?_, ?_, ?_, ?_, ?_, ?_⟩
  · simp only [key_up]
    split
    · rw [hs, hl]; exact h
    · show (clear_filter b)._selection - 1 < (clear_filter b)._list.length
      rw [hs, hl]; omega
  · simp only [key_down]
    split
    · rw [hs, hl]; exact h
    · rename_i hne
      show (clear_filter b)._selection + 1 < (clear_filter b)._list.length
      rw [hs, hl] at *; omega
  · unfold key_left
    split
    · exact h
    · rcases key_left_loop_spec b b._selection with ⟨j, _, h2, _, h4⟩ | ⟨_, h2⟩
      · rw [h4]; exact matches_filter_lt h2
      · rw [h2]; exact h
  · unfold key_right
    rcases scan_forward_spec b (b._list.length - (b._selection + 1)) (b._selection + 1)
      with ⟨j, _, _, h3, _, h5⟩ | ⟨_, h2⟩
    · rw [h5]; exact matches_filter_lt h3
    · rw [h2]; exact h
  · unfold key_char
    rcases scan_forward_spec { b with _name_filter := b._name_filter ++ [ch] }
      (b._list.length - b._selection) b._selection with ⟨j, _, _, h3, _, h5⟩ | ⟨_, h2⟩
    · simp only [] at h5 ⊢
      rw [h5]; exact matches_filter_lt h3
    · simp only [] at h2 ⊢
      rw [h2]; exact h
  · rw [toggle_eq b h]
    refine ⟨_, rfl, ?_⟩
    split
    · rw [hs, hl]; exact h
    · split
      · simp only [hs, List.length_append, List.length_take, List.length_cons]
        omega
      · simp only [hs, List.length_append, List.length_take, List.length_cons]
        omega

/-- C5, witness: the browser on the rows a, x, s, y, b with the selection on row 0. -/
theorem selection_stays_in_range_witness :
    nested_browser._selection < nested_browser._list.length ∧
    (key_up nested_browser)._selection < (key_up nested_browser)._list.length ∧
    (key_down nested_browser)._selection < (key_down nested_browser)._list.length ∧
    (key_left nested_browser)._selection < (key_left nested_browser)._list.length ∧
    (key_right nested_browser)._selection < (key_right nested_browser)._list.length ∧
    (key_char nested_browser 'b')._selection < (key_char nested_browser 'b')._list.length ∧
    ∃ b1, toggle nested_browser = some b1 ∧ b1._selection < b1._list.length :=
  ⟨by decide, selection_stays_in_range nested_browser 'b' (by decide)⟩

/-! ## The rows of a forest -/

theorem forest_rows_cons (exp : Finset Str) (ind : Nat) (p n : Str) (k : Kind) (m : Nat)
    (its rest : List DirTree) :
    forest_rows exp ind (.mk p n k m its :: rest) =
      ⟨ind, decide (p ∈ exp), .mk p n k m its⟩ ::
        ((if p ∈ exp then forest_rows exp (ind + 1) its else []) ++ forest_rows exp ind rest) := by
  simp [forest_rows]

theorem forest_paths_cons (p n : Str) (k : Kind) (m : Nat) (its rest : List DirTree) :
    forest_paths (.mk p n k m its :: rest) = p :: (forest_paths its ++ forest_paths rest) := by
  simp [forest_paths, tree_paths]

/-- Every row of a forest laid out at `ind` has indent at least `ind`, carries a path of
the forest, and its flag says whether its path is in the set. -/
theorem forest_rows_mem (exp : Finset Str) : ∀ (f : List DirTree) (ind : Nat) (r : row_t),
    r ∈ forest_rows exp ind f →
      ind ≤ r.indent ∧ r.entry.path ∈ forest_paths f ∧
      r.expanded = decide (r.entry.path ∈ exp) ∧
      (∀ q ∈ forest_paths r.entry.items, q ∈ forest_paths f)
  | [], ind, r, h => by simp [forest_rows] at h
  | .mk p n k m its :: rest, ind, r, h => by
    rw [forest_rows_cons] at h
    rw [forest_paths_cons]
    rcases List.mem_cons.mp h with h | h
    · subst h
      refine ⟨Nat.le_refl _, by simp [DirTree.path], by simp [DirTree.path], ?_⟩
      intro q hq
      simp only [DirTree.items] at hq
      simp [hq]
    · rcases List.mem_append.mp h with h | h
      · by_cases hp : p ∈ exp
        · simp only [hp, if_true] at h
          obtain ⟨h1, h2, h3, h4⟩ := forest_rows_mem exp its (ind + 1) r h
          refine ⟨by omega, by simp [h2], h3, ?_⟩
          intro q hq
          simp [h4 q hq]
        · simp [hp] at h
      · obtain ⟨h1, h2, h3, h4⟩ := forest_rows_mem exp rest ind r h
        refine ⟨h1, by simp [h2], h3, ?_⟩
        intro q hq
        simp [h4 q hq]

/-- The first row of a forest laid out at `ind` has indent `ind`. -/
theorem forest_rows_head (exp : Finset Str) (f : List DirTree) (ind : Nat) (r : row_t)
    (rs : List row_t) (h : forest_rows exp ind f = r :: rs) : r.indent = ind := by
  cases f with
  | nil => simp [forest_rows] at h
  | cons t rest =>
    cases t with
    | mk p n k m its =>
      rw [forest_rows_cons] at h
      injection h with h1 _
      rw [← h1]

/-- The rows of a forest depend on the set only through the paths of the forest. -/
theorem forest_rows_congr (exp exp1 : Finset Str) : ∀ (f : List DirTree) (ind : Nat),
    (∀ q ∈ forest_paths f, (q ∈ exp ↔ q ∈ exp1)) → forest_rows exp ind f = forest_rows exp1 ind f
  | [], ind, _ => by simp [forest_rows]
  | .mk p n k m its :: rest, ind, h => by
    rw [forest_paths_cons] at h
    have hp : (p ∈ exp ↔ p ∈ exp1) := h p (by simp)
    have h1 := forest_rows_congr exp exp1 its (ind + 1) (fun q hq => h q (by simp [hq]))
    have h2 := forest_rows_congr exp exp1 rest ind (fun q hq => h q (by simp [hq]))
    rw [forest_rows_cons, forest_rows_cons, h1, h2]
    by_cases hpe : p ∈ exp
    · simp [hpe, hp.mp hpe]
    · have : p ∉ exp1 := fun h' => hpe (hp.mpr h')
      simp [hpe, this]

/-- Dropping rows of indent at least `j` stops at a forest laid out at a smaller indent. -/
theorem dropWhile_append_forest_rows (exp : Finset Str) (f : List DirTree) (ind j : Nat)
    (hj : ind < j) (c : List row_t) :
    (c ++ forest_rows exp ind f).dropWhile (fun x => decide (x.indent ≥ j)) =
      c.dropWhile (fun x => decide (x.indent ≥ j)) ++ forest_rows exp ind f := by
  have hR : (forest_rows exp ind f).dropWhile (fun x => decide (x.indent ≥ j)) =
      forest_rows exp ind f := by
    cases hf : forest_rows exp ind f with
    | nil => rfl
    | cons r rs =>
      have := forest_rows_head exp f ind r rs hf
      rw [List.dropWhile_cons_of_neg]
      simp only [decide_eq_true_eq]; omega
  rw [List.dropWhile_append]
  split
  · rename_i he
    rw [hR]
    simp only [List.isEmpty_iff] at he
    rw [he]; rfl
  · rfl

theorem forest_rows_erase (exp : Finset Str) (q : Str) (f : List DirTree) (ind : Nat)
    (hq : q ∉ forest_paths f) : forest_rows (exp.erase q) ind f = forest_rows exp ind f := by
  apply forest_rows_congr
  intro x hx
  have : x ≠ q := fun e => hq (e ▸ hx)
  simp [Finset.mem_erase, this]

theorem forest_rows_insert (exp : Finset Str) (q : Str) (f : List DirTree) (ind : Nat)
    (hq : q ∉ forest_paths f) : forest_rows (insert q exp) ind f = forest_rows exp ind f := by
  apply forest_rows_congr
  intro x hx
  have : x ≠ q := fun e => hq (e ▸ hx)
  simp [Finset.mem_insert, this]

/-- The effect on the rows of a forest of taking the path of one of its rows out of the
set, or of putting it in, when the paths of the forest are distinct. -/
theorem forest_rows_toggle (exp : Finset Str) : ∀ (f : List DirTree) (ind : Nat)
    (pre : List row_t) (r : row_t) (post : List row_t),
    (forest_paths f).Nodup → forest_rows exp ind f = pre ++ r :: post →
    (r.entry.path ∈ exp →
      forest_rows (exp.erase r.entry.path) ind f =
        pre ++ { r with expanded := false } ::
          post.dropWhile (fun x => decide (x.indent ≥ r.indent + 1))) ∧
    (r.entry.path ∉ exp →
      forest_rows (insert r.entry.path exp) ind f =
        pre ++ { r with expanded := true } ::
          (forest_rows (insert r.entry.path exp) (r.indent + 1) r.entry.items ++ post))
  | [], ind, pre, r, post, _, heq => by simp [forest_rows] at heq
  | .mk p n k m its :: rest, ind, pre, r, post, hnd, heq => by
    rw [forest_paths_cons] at hnd
    have hnd' := (List.nodup_cons.mp hnd).2
    have hp_all := (List.nodup_cons.mp hnd).1
    have hp_its : p ∉ forest_paths its := fun h => hp_all (by simp [h])
    have hp_rest : p ∉ forest_paths rest := fun h => hp_all (by simp [h])
    have hnd_its : (forest_paths its).Nodup := (List.nodup_append.mp hnd').1
    have hnd_rest : (forest_paths rest).Nodup := (List.nodup_append.mp hnd').2.1
    have hdisj : ∀ q, q ∈ forest_paths its → q ∉ forest_paths rest :=
      fun q h1 h2 => (List.nodup_append.mp hnd').2.2 h1 h2
    rw [forest_rows_cons] at heq
    -- the row lies in the rows of `rest`
    have in_rest : ∀ (a : List row_t), forest_rows exp ind rest = a ++ r :: post →
        pre = ⟨ind, decide (p ∈ exp), .mk p n k m its⟩ ::
          ((if p ∈ exp then forest_rows exp (ind + 1) its else []) ++ a) →
        (r.entry.path ∈ exp →
          forest_rows (exp.erase r.entry.path) ind (.mk p n k m its :: rest) =
            pre ++ { r with expanded := false } ::
              post.dropWhile (fun x => decide (x.indent ≥ r.indent + 1))) ∧
        (r.entry.path ∉ exp →
          forest_rows (insert r.entry.path exp) ind (.mk p n k m its :: rest) =
            pre ++ { r with expanded := true } ::
              (forest_rows (insert r.entry.path exp) (r.indent + 1) r.entry.items ++ post)) := by
      intro a ha hpre
      have ih := forest_rows_toggle exp rest ind a r post hnd_rest ha
      have hr_mem : r ∈ forest_rows exp ind rest := by rw [ha]; simp
      have hq_rest := (forest_rows_mem exp rest ind r hr_mem).2.1
      have hq_ne : p ≠ r.entry.path := fun e => hp_rest (e ▸ hq_rest)
      have hq_its : r.entry.path ∉ forest_paths its := fun h => hdisj _ h hq_rest
      constructor
      · intro hq
        rw [forest_rows_cons, ih.1 hq, forest_rows_erase exp _ its _ hq_its, hpre]
        simp [Finset.mem_erase, hq_ne]
      · intro hq
        rw [forest_rows_cons, ih.2 hq, forest_rows_insert exp _ its _ hq_its, hpre]
        simp [Finset.mem_insert, hq_ne]
    cases pre with
    | nil =>
      simp only [List.nil_append, List.cons.injEq] at heq
      obtain ⟨hr, hpost⟩ := heq
      subst hr
      simp only [DirTree.path, DirTree.items]
      constructor
      · intro hq
        simp only [hq, if_true] at hpost
        rw [forest_rows_cons, forest_rows_erase exp p rest ind hp_rest, ← hpost]
        have hall : ∀ x ∈ forest_rows exp (ind + 1) its,
            (fun x : row_t => decide (x.indent ≥ ind + 1)) x = true := by
          intro x hx
          have := (forest_rows_mem exp its (ind + 1) x hx).1
          simpa using this
        rw [List.dropWhile_append_of_pos hall]
        have := dropWhile_append_forest_rows exp rest ind (ind + 1) (by omega) []
        simp only [List.nil_append, List.dropWhile_nil] at this
        rw [this]
        simp
      · intro hq
        simp only [hq, if_false, List.nil_append] at hpost
        rw [forest_rows_cons, forest_rows_insert exp p rest ind hp_rest, ← hpost]
        simp
    | cons x pre1 =>
      simp only [List.cons_append, List.cons.injEq] at heq
      obtain ⟨hx, hrest⟩ := heq
      rcases List.append_eq_append_iff.mp hrest with ⟨a, h1, h2⟩ | ⟨c, h1, h2⟩
      · exact in_rest a h2 (by rw [← hx, h1])
      · cases c with
        | nil =>
          simp only [List.nil_append, List.append_nil] at h1 h2
          exact in_rest [] (by simpa using h2.symm) (by rw [← hx, h1]; simp)
        | cons y c1 =>
          simp only [List.cons_append, List.cons.injEq] at h2
          obtain ⟨hy, hpost⟩ := h2
          subst hy
          by_cases hp : p ∈ exp
          · simp only [hp, if_true] at h1
            have ih := forest_rows_toggle exp its (ind + 1) pre1 r c1 hnd_its h1
            have hr_mem : r ∈ forest_rows exp (ind + 1) its := by rw [h1]; simp
            have hmem := forest_rows_mem exp its (ind + 1) r hr_mem
            have hq_ne : p ≠ r.entry.path := fun e => hp_its (e ▸ hmem.2.1)
            have hq_rest : r.entry.path ∉ forest_paths rest := hdisj _ hmem.2.1
            constructor
            · intro hq
              rw [forest_rows_cons, ih.1 hq, forest_rows_erase exp _ rest _ hq_rest, hpost,
                dropWhile_append_forest_rows exp rest ind (r.indent + 1) (by omega), ← hx]
              simp [Finset.mem_erase, hq_ne, hp]
            · intro hq
              rw [forest_rows_cons, ih.2 hq, forest_rows_insert exp _ rest _ hq_rest, hpost,
                ← hx]
              simp [Finset.mem_insert, hq_ne, hp]
          · simp [hp] at h1

theorem preorder_cons (depth : Nat) (anc : List Str) (p n : Str) (k : Kind) (m : Nat)
    (its rest : List DirTree) :
    preorder depth anc (.mk p n k m its :: rest) =
      (.mk p n k m its, depth, anc) ::
        (preorder (depth + 1) (p :: anc) its ++ preorder depth anc rest) := by
  simp [preorder]

/-- The rows of a forest are its nodes in pre-order all of whose ancestors are in the set,
each at its depth. -/
theorem forest_rows_visible (exp : Finset Str) : ∀ (f : List DirTree) (ind : Nat)
    (anc : List Str),
    ((preorder ind anc f).filter (fun x => x.2.2.all (fun a => decide (a ∈ exp)))).map
        (fun x => (x.1, x.2.1)) =
      if anc.all (fun a => decide (a ∈ exp)) = true then
        (forest_rows exp ind f).map (fun r => (r.entry, r.indent))
      else []
  | [], ind, anc => by simp [preorder, forest_rows]
  | .mk p n k m its :: rest, ind, anc => by
    have h1 := forest_rows_visible exp its (ind + 1) (p :: anc)
    have h2 := forest_rows_visible exp rest ind anc
    rw [preorder_cons, forest_rows_cons, List.filter_cons, List.filter_append]
    by_cases ha : anc.all (fun a => decide (a ∈ exp)) = true
    · simp only [ha, if_true, List.map_cons, List.map_append] at h2 ⊢
      rw [h1, h2]
      by_cases hp : p ∈ exp
      · simp [hp, ha]
      · simp [hp]
    · simp only [ha, if_false, Bool.false_eq_true, List.map_append] at h2 ⊢
      rw [h1, h2]
      have : ¬ ((p :: anc).all (fun a => decide (a ∈ exp)) = true) := by
        intro h
        apply ha
        simp only [List.all_cons, Bool.and_eq_true] at h
        exact h.2
      simp [this]

theorem splice_getElem? (l rest : List row_t) (s : Nat) (x : row_t) (h : s ≤ l.length) :
    (l.take s ++ x :: rest)[s]? = some x := by
  have hl : (l.take s).length = s := by simp [List.length_take]; omega
  rw [List.getElem?_append_right (by omega), hl]
  simp

/-- One `toggle` on a list that is the rows of the root's items for the current set leaves
such a list again; the set changes by the path of the selected row when it is a directory. -/
theorem toggle_forest (b : Browser) (hu : (forest_paths b._tree.items).Nodup)
    (hinv : b._list = forest_rows b._expanded_items 0 b._tree.items)
    (h : b._selection < b._list.length) :
    ∃ b1, toggle b = some b1 ∧ b1._tree = b._tree ∧ b1._selection = b._selection ∧
      b1._list = forest_rows b1._expanded_items 0 b1._tree.items ∧
      b1._selection < b1._list.length ∧
      (b1._list[b._selection]?).map (fun r => r.entry) = some (b._list[b._selection]).entry ∧
      b1._expanded_items =
        (if (b._list[b._selection]).entry.is_directory = true then
          (if (b._list[b._selection]).entry.path ∈ b._expanded_items then
            b._expanded_items.erase (b._list[b._selection]).entry.path
          else insert (b._list[b._selection]).entry.path b._expanded_items)
        else b._expanded_items) := by
  have hsplit : b._list = b._list.take b._selection ++
      b._list[b._selection] :: b._list.drop (b._selection + 1) := by
    rw [← List.drop_eq_getElem_cons h, List.take_append_drop]
  have hmem : b._list[b._selection] ∈ forest_rows b._expanded_items 0 b._tree.items := by
    rw [← hinv]; exact List.getElem_mem _
  have hflag := (forest_rows_mem _ _ _ _ hmem).2.2.1
  have htog := forest_rows_toggle b._expanded_items b._tree.items 0 _ _ _ hu
    (hinv.symm.trans hsplit)
  have hs := clear_filter_selection b
  have hl := clear_filter_list b
  have ht := clear_filter_tree b
  have he := clear_filter_expanded_items b
  rw [toggle_eq b h]
  refine ⟨_, rfl, ?_⟩
  by_cases hd : (b._list[b._selection]).entry.is_directory = true
  · simp only [hd, Bool.not_true, Bool.false_eq_true, if_false, if_true]
    by_cases hq : (b._list[b._selection]).entry.path ∈ b._expanded_items
    · have hexp : (b._list[b._selection]).expanded = true := by rw [hflag]; simpa using hq
      simp only [hexp, hq, if_true, ht, hs]
      refine ⟨trivial, trivial, (htog.1 hq).symm, ?_, ?_, trivial⟩
      · simp only [List.length_append, List.length_take, List.length_cons]; omega
      · rw [splice_getElem? _ _ _ _ (by omega)]; rfl
    · have hexp : (b._list[b._selection]).expanded = false := by rw [hflag]; simpa using hq
      simp only [hexp, hq, if_false, Bool.false_eq_true, ht, hs]
      refine ⟨trivial, trivial, (htog.2 hq).symm, ?_, ?_, trivial⟩
      · simp only [List.length_append, List.length_take, List.length_cons]; omega
      · rw [splice_getElem? _ _ _ _ (by omega)]; rfl
  · simp only [hd, Bool.not_false, if_true, Bool.false_eq_true, if_false, ht, hs, hl, he]
    refine ⟨trivial, trivial, hinv, h, ?_, trivial⟩
    rw [List.getElem?_eq_getElem h]; rfl

theorem forest_rows_isEmpty (exp : Finset Str) (ind : Nat) (f : List DirTree) (hf : f ≠ []) :
    (forest_rows exp ind f).isEmpty = false := by
  cases f with
  | nil => exact absurd rfl hf
  | cons t rest =>
    cases t with
    | mk p n k m its => rw [forest_rows_cons]; rfl

theorem tree_paths_nodup_items (t : DirTree) (h : (tree_paths t).Nodup) :
    (forest_paths t.items).Nodup := by
  cases t with
  | mk p n k m its =>
    simp only [tree_paths] at h
    exact (List.nodup_cons.mp h).2

theorem toggle_at_eq (b : Browser) (s : Nat) (h : s < b._list.length) :
    toggle_at b s = toggle { b with _selection := s } := by
  simp [toggle_at, h]

/-- A run of `toggle` calls from a list that is the rows of the root's items for the
current set ends in such a list, on the same tree. -/
theorem toggles_forest : ∀ (sels : List Nat) (b b1 : Browser),
    (forest_paths b._tree.items).Nodup →
    b._list = forest_rows b._expanded_items 0 b._tree.items →
    toggles b sels = some b1 →
    b1._tree = b._tree ∧ b1._list = forest_rows b1._expanded_items 0 b1._tree.items
  | [], b, b1, _, hinv, hrun => by
    simp only [toggles, Option.some.injEq] at hrun
    subst hrun
    exact ⟨rfl, hinv⟩
  | s :: rest, b, b1, hu, hinv, hrun => by
    simp only [toggles] at hrun
    by_cases hs : s < b._list.length
    · rw [toggle_at_eq b s hs] at hrun
      obtain ⟨b2, h1, h2, _, h4, _, _, _⟩ :=
        toggle_forest { b with _selection := s } hu hinv hs
      rw [h1] at hrun
      simp only [Option.some_bind] at hrun
      have ih := toggles_forest rest b2 b1 (by rw [h2]; exact hu) h4 hrun
      exact ⟨ih.1.trans h2, ih.2⟩
    · simp [toggle_at, hs] at hrun

/-! ## The projection after any sequence of toggles -/

/-- C1: on a tree with distinct paths whose root has at least one child, after `build_list`
and any sequence of `toggle` calls with the selection on a row of the list, the rows are,
in order, the nodes below the root all of whose ancestors below the root are in the
expansion-state set, each at its depth below the root (the root's children at 0), and
the list is the one `build_list` makes from the same tree and the current set. From the
state reached, `toggle` with the selection on any row of the list returns again. -/
theorem toggles_keep_projection (b0 : Browser) (sels : List Nat) (b : Browser)
    (hu : (tree_paths b0._tree).Nodup) (hc : b0._tree.items ≠ [])
    (hrun : toggles (build_list b0) sels = some b) :
    b._tree = b0._tree ∧
    b._list.map (fun r => (r.entry, r.indent)) = visible_nodes b._expanded_items b._tree ∧
    (build_list b)._list = b._list ∧
    (∀ s, s < b._list.length → (toggle_at b s).isSome = true) := by
  have hu' := tree_paths_nodup_items _ hu
  have h0 : (build_list b0)._list =
      forest_rows (build_list b0)._expanded_items 0 (build_list b0)._tree.items := by
    rw [build_list_list, forest_rows_isEmpty _ _ _ hc]
    rfl
  obtain ⟨ht, hl⟩ := toggles_forest sels (build_list b0) b hu' h0 hrun
  have ht' : b._tree = b0._tree := ht
  have hvis := forest_rows_visible b._expanded_items b._tree.items 0 []
  simp only [List.all_nil, if_true] at hvis
  refine ⟨ht', ?_, ?_, ?_⟩
  · rw [hl]; exact hvis.symm
  · rw [build_list_list, forest_rows_isEmpty _ _ _ (by rw [ht']; exact hc)]
    exact hl.symm
  · intro s hs
    rw [toggle_at_eq b s hs]
    obtain ⟨b2, h1, _⟩ := toggle_forest { b with _selection := s }
      (by rw [ht']; exact hu') hl hs
    rw [h1]; rfl

/-- C1, witness: on `nested_tree` with `/r/a` expanded (rows a, x, s, b) the toggles at
rows 0, 0, 2 and 1 collapse a, expand it again, expand s, and leave the file x alone; the
rows are then a, x, s, y, b at the indents 0, 1, 1, 2, 0. -/
theorem toggles_keep_projection_witness :
    (tree_paths (fresh_browser nested_tree {"/r/a".toList} 0)._tree).Nodup ∧
    (fresh_browser nested_tree {"/r/a".toList} 0)._tree.items ≠ [] ∧
    (toggles (build_list (fresh_browser nested_tree {"/r/a".toList} 0)) [0, 0, 2, 1]).map
      (fun b => b._list.map (fun r => (r.indent, r.expanded, r.entry.name))) =
      some [(0, true, ['a']), (1, false, ['x']), (1, true, ['s']), (2, false, ['y']),
        (0, false, ['b'])] ∧
    ∃ b, toggles (build_list (fresh_browser nested_tree {"/r/a".toList} 0)) [0, 0, 2, 1]
        = some b ∧
      b._tree = (fresh_browser nested_tree {"/r/a".toList} 0)._tree ∧
      b._list.map (fun r => (r.entry, r.indent)) = visible_nodes b._expanded_items b._tree ∧
      (build_list b)._list = b._list ∧
      (∀ s, s < b._list.length → (toggle_at b s).isSome = true) := by
  have hs : (toggles (build_list (fresh_browser nested_tree {"/r/a".toList} 0))
      [0, 0, 2, 1]).isSome = true := by decide
  have hu : (tree_paths (fresh_browser nested_tree {"/r/a".toList} 0)._tree).Nodup := by
    decide
  have hc : (fresh_browser nested_tree {"/r/a".toList} 0)._tree.items ≠ [] :=
    List.cons_ne_nil _ _
  obtain ⟨b, hb⟩ := Option.isSome_iff_exists.mp hs
  exact ⟨hu, hc, by rfl, b, hb,
    toggles_keep_projection (fresh_browser nested_tree {"/r/a".toList} 0) [0, 0, 2, 1] b
      hu hc hb⟩

/-! ## Toggling twice -/

/-- The lemma `toggle_eq` with the selected row named. -/
theorem toggle_eq_row (b : Browser) (r : row_t) (hr : b._list[b._selection]? = some r) :
    toggle b = some (
      if !r.entry.is_directory then clear_filter b
      else if r.expanded then
        { clear_filter b with
          _expanded_items := b._expanded_items.erase r.entry.path
          _list := b._list.take b._selection ++ { r with expanded := false } ::
            (b._list.drop (b._selection + 1)).dropWhile
              (fun x => decide (x.indent ≥ r.indent + 1)) }
      else
        { clear_filter b with
          _expanded_items := insert r.entry.path b._expanded_items
          _list := b._list.take b._selection ++ { r with expanded := true } ::
            (forest_rows (insert r.entry.path b._expanded_items) (r.indent + 1) r.entry.items ++
              b._list.drop (b._selection + 1)) }) := by
  obtain ⟨h, hrr⟩ := List.getElem?_eq_some.mp hr
  subst hrr
  exact toggle_eq b h

/-- The lemma `toggle_forest` with the selected row named. -/
theorem toggle_forest_row (b : Browser) (r : row_t)
    (hu : (forest_paths b._tree.items).Nodup)
    (hinv : b._list = forest_rows b._expanded_items 0 b._tree.items)
    (hr : b._list[b._selection]? = some r) :
    ∃ b1, toggle b = some b1 ∧ b1._tree = b._tree ∧ b1._selection = b._selection ∧
      b1._list = forest_rows b1._expanded_items 0 b1._tree.items ∧
      (∃ r1, b1._list[b1._selection]? = some r1 ∧ r1.entry = r.entry) ∧
      b1._expanded_items =
        (if r.entry.is_directory = true then
          (if r.entry.path ∈ b._expanded_items then b._expanded_items.erase r.entry.path
          else insert r.entry.path b._expanded_items)
        else b._expanded_items) := by
  obtain ⟨h, hrr⟩ := List.getElem?_eq_some.mp hr
  subst hrr
  obtain ⟨b1, h1, h2, h3, h4, _, h6, h7⟩ := toggle_forest b hu hinv h
  refine ⟨b1, h1, h2, h3, h4, ?_, h7⟩
  rw [h3]
  cases hg : b1._list[b._selection]? with
  | none => rw [hg] at h6; simp at h6
  | some r1 =>
    rw [hg] at h6
    simp only [Option.map_some', Option.some.injEq] at h6
    exact ⟨r1, rfl, h6⟩

/-- After `build_list` on a root with a child and any run of `toggle` calls, the flag of
every row says whether the path of its node is in the expansion-state set. -/
theorem toggles_flags (b0 : Browser) (sels : List Nat) (b : Browser)
    (hu : (tree_paths b0._tree).Nodup) (hc : b0._tree.items ≠ [])
    (hrun : toggles (build_list b0) sels = some b) :
    ∀ x ∈ b._list, x.expanded = decide (x.entry.path ∈ b._expanded_items) := by
  have h0 : (build_list b0)._list =
      forest_rows (build_list b0)._expanded_items 0 (build_list b0)._tree.items := by
    rw [build_list_list, forest_rows_isEmpty _ _ _ hc]
    rfl
  obtain ⟨_, hl⟩ := toggles_forest sels (build_list b0) b (tree_paths_nodup_items _ hu) h0 hrun
  intro x hx
  rw [hl] at hx
  exact (forest_rows_mem _ _ _ _ hx).2.2.1

/-! ## The dialog: dispatch of `process` -/

/-- The branch of `process` for a key code from 32 to 127. -/
theorem process_printable (d : Dialog) (ch : Int) (h1 : 32 ≤ ch) (h2 : ch ≤ 127) :
    process d ch =
      if ch ≥ 48 ∧ ch ≤ 57 ∧ d._suggestion_selected = true then
        some ⟨false, select_suggestion d (ch - 48).toNat,
          if (select_suggestion d (ch - 48).toNat)._layout.commit then
            [HostCall.commit (select_suggestion d (ch - 48).toNat)._layout.value] else []⟩
      else if !d._layout.show_value && decide (ch = 89 ∨ ch = 121) then
        some ⟨false, d, if d._layout.yes then [HostCall.yes d._layout.value] else []⟩
      else if !d._layout.show_value && decide (ch = 78 ∨ ch = 110) then
        some ⟨false, d, if d._layout.no then [HostCall.no d._layout.value] else []⟩
      else (key_insert d ch).map process_end := by
  unfold process
  rw [if_neg (by simp only [Control.Escape, Control.Close]; omega),
    if_neg (by simp only [Control.Return, Control.Enter]; omega),
    if_neg (by simp only [KEY_LEFT]; omega), if_neg (by simp only [KEY_RIGHT]; omega),
    if_neg (by simp only [KEY_UP]; omega), if_neg (by simp only [KEY_DOWN]; omega),
    if_neg (by simp only [Control.Backspace]; omega), if_neg (by simp only [KEY_DC]; omega),
    if_neg (by omega)]

theorem select_suggestion_options (d : Dialog) (i : Nat) :
    (select_suggestion d i)._layout.options = d._layout.options ∧
    (select_suggestion d i)._layout.commit = d._layout.commit ∧
    (select_suggestion d i)._layout.show_value = d._layout.show_value ∧
    (select_suggestion d i)._cursor_pos = d._cursor_pos := by
  unfold select_suggestion set_value
  split
  · split
    · exact ⟨rfl, rfl, rfl, rfl⟩
    · split <;> exact ⟨rfl, rfl, rfl, rfl⟩
  · exact ⟨rfl, rfl, rfl, rfl⟩

/-- Selecting a suggestion outside the options changes nothing. -/
theorem select_suggestion_out_of_range (d : Dialog) (i : Nat)
    (h : d._layout.options.length ≤ i) : select_suggestion d i = d := by
  unfold select_suggestion
  rw [dif_neg (by omega)]

/-- Selecting option `i`, when the value is that option in case suggestion `i` is selected
already. -/
theorem select_suggestion_in_range (d : Dialog) (i : Nat) (opt : Str)
    (h : d._layout.options[i]? = some opt)
    (hm : d._suggestion_selected = true → d._sugg_item = i → d._layout.value = opt) :
    (select_suggestion d i)._suggestion_selected = true ∧
    (select_suggestion d i)._sugg_item = i ∧
    (select_suggestion d i)._layout.value = opt := by
  obtain ⟨hi, hopt⟩ := List.getElem?_eq_some.mp h
  unfold select_suggestion
  rw [dif_pos hi]
  by_cases hs : (d._suggestion_selected && decide (d._sugg_item = i)) = true
  · rw [if_pos hs]
    simp only [Bool.and_eq_true, decide_eq_true_eq] at hs
    exact ⟨hs.1, hs.2, hm hs.1 hs.2⟩
  · rw [if_neg hs]
    unfold set_value
    split
    · rename_i hv
      exact ⟨rfl, rfl, by simp only at hv; rw [← hv, hopt]⟩
    · exact ⟨rfl, rfl, hopt⟩

theorem process_end_fields (d : Dialog) :
    (process_end d).result = true ∧ (process_end d).calls = [] ∧
    (process_end d).dialog._layout = d._layout ∧
    (process_end d).dialog._suggestion_selected = d._suggestion_selected ∧
    (process_end d).dialog._sugg_item = d._sugg_item ∧
    (process_end d).dialog._cursor_pos = d._cursor_pos := by
  unfold process_end paint
  refine ⟨rfl, rfl, ?_, ?_, ?_, ?_⟩ <;> (simp only; split <;> rfl)

/-! ## The dialog: quick select, cancel, Return and the Down arrow -/

/-- C11: with a suggestion selected (the value being that suggestion), a digit that is the
index of an option makes that option the value and the selected suggestion, calls the
commit callback of the layout once with it, calls neither yes nor no, and `process`
returns false. A layout without a commit callback has none to call. -/
theorem digit_quick_select (d : Dialog) (ch : Int) (opt : Str)
    (hs : d._suggestion_selected = true)
    (hm : d._layout.options[d._sugg_item]? = some d._layout.value)
    (h1 : 48 ≤ ch) (h2 : ch ≤ 57)
    (hopt : d._layout.options[(ch - 48).toNat]? = some opt) :
    ∃ o, process d ch = some o ∧ o.result = false ∧
      o.calls = (if d._layout.commit then [HostCall.commit opt] else []) ∧
      o.dialog._layout.value = opt ∧ o.dialog._suggestion_selected = true ∧
      o.dialog._sugg_item = (ch - 48).toNat := by
  have hsel := select_suggestion_in_range d (ch - 48).toNat opt hopt (by
    intro _ hi
    rw [hi, hopt] at hm
    exact (Option.some.inj hm).symm)
  have hfr := select_suggestion_options d (ch - 48).toNat
  rw [process_printable d ch (by omega) (by omega), if_pos ⟨h1, h2, hs⟩]
  exact ⟨_, rfl, rfl, by simp only [hfr.2.1, hsel.2.2], hsel.2.2, hsel.1, hsel.2.1⟩

/-- C11, witness: with the options a, b, c and a selected, typing `1` makes b the value,
calls commit once with b and ends the session. -/
theorem digit_quick_select_witness :
    (Dialog.new abc_layout)._suggestion_selected = true ∧
    (process (Dialog.new abc_layout) 49).map (fun o => (o.result, o.calls)) =
      some (false, [HostCall.commit ['b']]) ∧
    ∃ o, process (Dialog.new abc_layout) 49 = some o ∧ o.result = false ∧
      o.calls = (if (Dialog.new abc_layout)._layout.commit then [HostCall.commit ['b']]
        else []) ∧
      o.dialog._layout.value = ['b'] ∧ o.dialog._suggestion_selected = true ∧
      o.dialog._sugg_item = ((49 : Int) - 48).toNat :=
  ⟨by decide, by decide,
    digit_quick_select (Dialog.new abc_layout) 49 ['b'] (by decide) (by decide) (by decide)
      (by decide) (by decide)⟩

/-- C12: Escape and Close report the notice Cancelled to the host, call none of commit,
yes and no, leave the dialog as it is, and `process` returns false. -/
theorem escape_close_cancel (d : Dialog) :
    process d Control.Escape =
      some ⟨false, d, [HostCall.show_result "Cancelled".toList]⟩ ∧
    process d Control.Close =
      some ⟨false, d, [HostCall.show_result "Cancelled".toList]⟩ := by
  constructor <;> simp [process, Control.Escape, Control.Close]
/-- C15: the Down arrow. With suggestion `i` selected it selects suggestion `i + 1` and makes
that option the value when there is one, and leaves mode, index, value and cursor as
they are when there is none; in field editing it selects suggestion 0 and makes the first
option the value when there is an option, and leaves mode, index, value and cursor as
they are when there is none. No host call is made and `process` returns true. -/
theorem arrow_down_selects_next (d : Dialog) :
    ∃ o, process d KEY_DOWN = some o ∧ o.result = true ∧ o.calls = [] ∧
      o.dialog._layout.options = d._layout.options ∧
      (d._suggestion_selected = true →
        ∀ opt, d._layout.options[d._sugg_item + 1]? = some opt →
          o.dialog._suggestion_selected = true ∧ o.dialog._sugg_item = d._sugg_item + 1 ∧
          o.dialog._layout.value = opt) ∧
      (d._suggestion_selected = true → d._layout.options.length ≤ d._sugg_item + 1 →
        o.dialog._suggestion_selected = true ∧ o.dialog._sugg_item = d._sugg_item ∧
        o.dialog._layout.value = d._layout.value ∧ o.dialog._cursor_pos = d._cursor_pos) ∧
      (d._suggestion_selected = false →
        ∀ opt, d._layout.options[0]? = some opt →
          o.dialog._suggestion_selected = true ∧ o.dialog._sugg_item = 0 ∧
          o.dialog._layout.value = opt) ∧
      (d._suggestion_selected = false → d._layout.options = [] →
        o.dialog._suggestion_selected = false ∧ o.dialog._sugg_item = d._sugg_item ∧
        o.dialog._layout.value = d._layout.value ∧ o.dialog._cursor_pos = d._cursor_pos) := by
  have hp : process d KEY_DOWN = some (process_end (arrow_down d)) := by
    simp [process, Control.Escape, Control.Close, Control.Return, Control.Enter, KEY_LEFT,
      KEY_RIGHT, KEY_UP, KEY_DOWN]
  obtain ⟨e1, e2, e3, e4, e5, e6⟩ := process_end_fields (arrow_down d)
  refine ⟨_, hp, e1, e2, ?_, ?_, ?_, ?_, ?_⟩
  · rw [e3]
    unfold arrow_down
    split <;> exact (select_suggestion_options d _).1
  · intro hs opt hopt
    have hsel := select_suggestion_in_range d (d._sugg_item + 1) opt hopt
      (fun _ hi => by omega)
    rw [e3, e4, e5]
    simp only [arrow_down, hs, if_true]
    exact hsel
  · intro hs hlen
    rw [e3, e4, e5, e6]
    simp only [arrow_down, hs, if_true, select_suggestion_out_of_range d _ hlen]
    exact ⟨trivial, trivial, trivial, trivial⟩
  · intro hs opt hopt
    have hsel := select_suggestion_in_range d 0 opt hopt
      (fun h _ => by rw [hs] at h; exact absurd h (by simp))
    rw [e3, e4, e5]
    simp only [arrow_down, hs, Bool.false_eq_true, if_false]
    exact hsel
  · intro hs hemp
    rw [e3, e4, e5, e6]
    simp only [arrow_down, hs, Bool.false_eq_true, if_false,
      select_suggestion_out_of_range d 0 (by rw [hemp]; simp)]
    exact ⟨trivial, trivial, trivial, trivial⟩

/-- C15, witness: with the two options main.cpp and main.rs and suggestion 1 selected, the
Down arrow leaves mode, index, value and cursor as they are. -/
theorem arrow_down_selects_next_witness :
    main_dialog_second._suggestion_selected = true ∧
    main_dialog_second._sugg_item = 1 ∧
    main_dialog_second._layout.options.length ≤ main_dialog_second._sugg_item + 1 ∧
    ∃ o, process main_dialog_second KEY_DOWN = some o ∧ o.result = true ∧
      o.dialog._suggestion_selected = true ∧
      o.dialog._sugg_item = main_dialog_second._sugg_item ∧
      o.dialog._layout.value = main_dialog_second._layout.value ∧
      o.dialog._cursor_pos = main_dialog_second._cursor_pos := by
  obtain ⟨o, h1, h2, _, _, _, h4, _, _⟩ := arrow_down_selects_next main_dialog_second
  exact ⟨by decide, by decide, by decide, o, h1, h2, h4 (by decide) (by decide)⟩

/-- C16: Return and Enter. When the value is shown they call the commit callback of the
layout once with the value, call neither yes nor no, leave the dialog as it is, and
`process` returns false (a layout without a commit callback has none to call). When the
value is not shown no host call is made, value, cursor and mode stay as they are, and
`process` returns true. -/
theorem return_enter_commit (d : Dialog) :
    (d._layout.show_value = true →
      process d Control.Return = some ⟨false, d,
        if d._layout.commit then [HostCall.commit d._layout.value] else []⟩ ∧
      process d Control.Enter = some ⟨false, d,
        if d._layout.commit then [HostCall.commit d._layout.value] else []⟩) ∧
    (d._layout.show_value = false →
      ∃ o, process d Control.Return = some o ∧ process d Control.Enter = some o ∧
        o.result = true ∧ o.calls = [] ∧ o.dialog._layout = d._layout ∧
        o.dialog._suggestion_selected = d._suggestion_selected ∧
        o.dialog._sugg_item = d._sugg_item ∧ o.dialog._cursor_pos = d._cursor_pos) := by
  constructor
  · intro hs
    constructor <;>
      simp [process, Control.Escape, Control.Close, Control.Return, Control.Enter, hs]
  · intro hs
    obtain ⟨e1, e2, e3, e4, e5, e6⟩ := process_end_fields d
    refine ⟨process_end d, ?_, ?_, e1, e2, e3, e4, e5, e6⟩ <;>
      simp [process, Control.Escape, Control.Close, Control.Return, Control.Enter, hs]

/-- C16, witness: Return on the dialog built from the options a, b, c commits the value a;
Return on the yes/no dialog, whose value is not shown, does nothing. -/
theorem return_enter_commit_witness :
    (Dialog.new abc_layout)._layout.show_value = true ∧
    (Dialog.new yes_no_layout)._layout.show_value = false ∧
    process (Dialog.new abc_layout) Control.Return =
      some ⟨false, Dialog.new abc_layout, [HostCall.commit ['a']]⟩ ∧
    ∃ o, process (Dialog.new yes_no_layout) Control.Return = some o ∧
      o.result = true ∧ o.calls = [] :=
  ⟨by decide, by decide, ((return_enter_commit (Dialog.new abc_layout)).1 (by decide)).1,
    ((return_enter_commit (Dialog.new yes_no_layout)).2 (by decide)).imp
      (fun _ h => ⟨h.1, h.2.2.1, h.2.2.2.1⟩)⟩

/-- C20: with a suggestion selected (the value being that suggestion), a digit that is not
the index of an option selects nothing: the dialog stays as it is, suggestion and value
included; the commit callback of the layout is called once with that value and `process`
returns false. A layout without a commit callback has none to call. -/
theorem digit_out_of_range_commits (d : Dialog) (ch : Int)
    (hs : d._suggestion_selected = true)
    (hm : d._layout.options[d._sugg_item]? = some d._layout.value)
    (h1 : 48 ≤ ch) (h2 : ch ≤ 57)
    (hr : d._layout.options.length ≤ (ch - 48).toNat) :
    ∃ o, process d ch = some o ∧ o.result = false ∧ o.dialog = d ∧
      o.calls = (if d._layout.commit then [HostCall.commit d._layout.value] else []) ∧
      o.dialog._suggestion_selected = true ∧ o.dialog._sugg_item = d._sugg_item ∧
      o.dialog._layout.options[o.dialog._sugg_item]? = some o.dialog._layout.value := by
  rw [process_printable d ch (by omega) (by omega), if_pos ⟨h1, h2, hs⟩,
    select_suggestion_out_of_range d _ hr]
  exact ⟨_, rfl, rfl, rfl, rfl, hs, rfl, hm⟩

/-- C20, witness: with the options a, b, c and a selected, typing `7` selects nothing,
calls commit once with a and ends the session. -/
theorem digit_out_of_range_commits_witness :
    (Dialog.new abc_layout)._suggestion_selected = true ∧
    (Dialog.new abc_layout)._layout.options.length ≤ ((55 : Int) - 48).toNat ∧
    (process (Dialog.new abc_layout) 55).map (fun o => (o.result, o.calls)) =
      some (false, [HostCall.commit ['a']]) ∧
    ∃ o, process (Dialog.new abc_layout) 55 = some o ∧ o.result = false ∧
      o.dialog = Dialog.new abc_layout ∧
      o.calls = (if (Dialog.new abc_layout)._layout.commit then
        [HostCall.commit (Dialog.new abc_layout)._layout.value] else []) ∧
      o.dialog._suggestion_selected = true ∧
      o.dialog._sugg_item = (Dialog.new abc_layout)._sugg_item ∧
      o.dialog._layout.options[o.dialog._sugg_item]? = some o.dialog._layout.value :=
  ⟨by decide, by decide, by decide,
    digit_out_of_range_commits (Dialog.new abc_layout) 55 (by decide) (by decide) (by decide)
      (by decide) (by decide)⟩

/-! ## The dialog: invariants of a session -/

theorem select_field_spec (d : Dialog) :
    (select_field d)._suggestion_selected = false ∧
    (select_field d)._layout = d._layout ∧
    (cursor_in_bounds d → (select_field d)._cursor_pos ≤ (select_field d)._layout.value.length) := by
  unfold select_field cursor_in_bounds
  cases hs : d._suggestion_selected with
  | false => simp [hs]
  | true => simp

theorem select_suggestion_inv (d : Dialog) (i : Nat) (hc : cursor_in_bounds d)
    (hm : suggestion_mirrors d) :
    cursor_in_bounds (select_suggestion d i) ∧ suggestion_mirrors (select_suggestion d i) := by
  by_cases hi : i < d._layout.options.length
  · have hopt : d._layout.options[i]? = some (d._layout.options[i]) :=
      List.getElem?_eq_getElem hi
    obtain ⟨h1, h2, h3⟩ := select_suggestion_in_range d i _ hopt (fun hs hit => by
      have := hm hs
      rw [hit, hopt] at this
      exact (Option.some.inj this).symm)
    constructor
    · intro hf; rw [h1] at hf; exact absurd hf (by simp)
    · intro _
      rw [h2, (select_suggestion_options d i).1, h3]
      exact hopt
  · rw [select_suggestion_out_of_range d i (by omega)]
    exact ⟨hc, hm⟩

theorem process_end_inv (d : Dialog) (hc : cursor_in_bounds d) (hm : suggestion_mirrors d) :
    cursor_in_bounds (process_end d).dialog ∧ suggestion_mirrors (process_end d).dialog := by
  obtain ⟨_, _, e3, e4, e5, e6⟩ := process_end_fields d
  unfold cursor_in_bounds suggestion_mirrors at *
  rw [e3, e4, e5, e6]
  exact ⟨hc, hm⟩

/-- A dialog in field editing with the cursor inside the value. -/
theorem field_inv (d : Dialog) (hs : d._suggestion_selected = false)
    (hc : d._cursor_pos ≤ d._layout.value.length) :
    cursor_in_bounds d ∧ suggestion_mirrors d :=
  ⟨fun _ => hc, fun h => by rw [hs] at h; exact absurd h (by simp)⟩

theorem arrow_left_inv (d : Dialog) (hc : cursor_in_bounds d) :
    cursor_in_bounds (arrow_left d) ∧ suggestion_mirrors (arrow_left d) := by
  obtain ⟨s1, _, _⟩ := select_field_spec d
  unfold arrow_left
  split
  · exact field_inv _ s1 (Nat.le_refl _)
  · rename_i hs
    have hs' : d._suggestion_selected = false := by simpa using hs
    refine field_inv _ hs' ?_
    have := hc hs'
    show d._cursor_pos - min d._cursor_pos 1 ≤ d._layout.value.length
    omega

theorem arrow_right_inv (d : Dialog) (hc : cursor_in_bounds d) :
    cursor_in_bounds (arrow_right d) ∧ suggestion_mirrors (arrow_right d) := by
  obtain ⟨s1, _, _⟩ := select_field_spec d
  unfold arrow_right
  split
  · exact field_inv _ s1 (Nat.zero_le _)
  · rename_i hs
    have hs' : d._suggestion_selected = false := by simpa using hs
    split
    · rename_i hlt
      exact field_inv _ hs' (by show d._cursor_pos + 1 ≤ d._layout.value.length; omega)
    · exact field_inv _ hs' (hc hs')

theorem arrow_up_inv (d : Dialog) (hc : cursor_in_bounds d) (hm : suggestion_mirrors d) :
    cursor_in_bounds (arrow_up d) ∧ suggestion_mirrors (arrow_up d) := by
  obtain ⟨s1, _, s3⟩ := select_field_spec d
  unfold arrow_up
  split
  · exact ⟨hc, hm⟩
  · split
    · exact select_suggestion_inv d _ hc hm
    · exact field_inv _ s1 (s3 hc)

theorem arrow_down_inv (d : Dialog) (hc : cursor_in_bounds d) (hm : suggestion_mirrors d) :
    cursor_in_bounds (arrow_down d) ∧ suggestion_mirrors (arrow_down d) := by
  unfold arrow_down
  split <;> exact select_suggestion_inv d _ hc hm

/-- With the cursor in bounds `delete_prev` has a result, in field editing. -/
theorem delete_prev_inv (d : Dialog) (hc : cursor_in_bounds d) :
    ∃ d1, delete_prev d = some d1 ∧ d1._suggestion_selected = false ∧
      cursor_in_bounds d1 ∧ suggestion_mirrors d1 := by
  obtain ⟨s1, _, s3⟩ := select_field_spec d
  have hb := s3 hc
  unfold delete_prev
  simp only
  split
  · exact ⟨_, rfl, s1, field_inv _ s1 hb⟩
  · split
    · exact ⟨_, rfl, s1, field_inv _ s1 hb⟩
    · rename_i h0
      have hlt : (select_field d)._cursor_pos - 1 < (select_field d)._layout.value.length := by
        omega
      rw [if_pos hlt]
      refine ⟨_, rfl, s1, field_inv _ s1 ?_⟩
      simp only [List.length_eraseIdx, hlt, if_true]
      omega

theorem delete_next_inv (d : Dialog) (hc : cursor_in_bounds d) :
    (delete_next d)._suggestion_selected = false ∧
    cursor_in_bounds (delete_next d) ∧ suggestion_mirrors (delete_next d) := by
  obtain ⟨s1, _, s3⟩ := select_field_spec d
  have hb := s3 hc
  unfold delete_next
  simp only
  split
  · exact ⟨s1, field_inv _ s1 hb⟩
  · split
    · exact ⟨s1, field_inv _ s1 hb⟩
    · rename_i hge
      have hlt : (select_field d)._cursor_pos < (select_field d)._layout.value.length := by
        omega
      refine ⟨s1, field_inv _ s1 ?_⟩
      simp only [List.length_eraseIdx, hlt, if_true]
      omega

/-- With the cursor in bounds `key_insert` has a result, in field editing. -/
theorem key_insert_inv (d : Dialog) (ch : Int) (hc : cursor_in_bounds d) :
    ∃ d1, key_insert d ch = some d1 ∧ d1._suggestion_selected = false ∧
      cursor_in_bounds d1 ∧ suggestion_mirrors d1 := by
  obtain ⟨s1, _, s3⟩ := select_field_spec d
  have hb := s3 hc
  unfold key_insert
  simp only
  rw [if_pos hb]
  refine ⟨_, rfl, s1, field_inv _ s1 ?_⟩
  simp only [List.length_append, List.length_take, List.length_cons, List.length_drop]
  omega

/-- One event keeps the cursor in bounds in field editing and the value equal to the
selected suggestion, and `process` has a result. -/
theorem process_inv (d : Dialog) (ch : Int) (hc : cursor_in_bounds d)
    (hm : suggestion_mirrors d) :
    ∃ o, process d ch = some o ∧ cursor_in_bounds o.dialog ∧ suggestion_mirrors o.dialog := by
  unfold process
  by_cases c1 : ch = Control.Escape ∨ ch = Control.Close
  · rw [if_pos c1]; exact ⟨_, rfl, hc, hm⟩
  rw [if_neg c1]
  by_cases c2 : ch = Control.Return ∨ ch = Control.Enter
  · rw [if_pos c2]
    by_cases c2a : (!d._layout.show_value) = true
    · rw [if_pos c2a]; exact ⟨_, rfl, process_end_inv d hc hm⟩
    · rw [if_neg c2a]; exact ⟨_, rfl, hc, hm⟩
  rw [if_neg c2]
  by_cases c3 : ch = KEY_LEFT
  · rw [if_pos c3]
    exact ⟨_, rfl, process_end_inv _ (arrow_left_inv d hc).1 (arrow_left_inv d hc).2⟩
  rw [if_neg c3]
  by_cases c4 : ch = KEY_RIGHT
  · rw [if_pos c4]
    exact ⟨_, rfl, process_end_inv _ (arrow_right_inv d hc).1 (arrow_right_inv d hc).2⟩
  rw [if_neg c4]
  by_cases c5 : ch = KEY_UP
  · rw [if_pos c5]
    exact ⟨_, rfl, process_end_inv _ (arrow_up_inv d hc hm).1 (arrow_up_inv d hc hm).2⟩
  rw [if_neg c5]
  by_cases c6 : ch = KEY_DOWN
  · rw [if_pos c6]
    exact ⟨_, rfl, process_end_inv _ (arrow_down_inv d hc hm).1 (arrow_down_inv d hc hm).2⟩
  rw [if_neg c6]
  by_cases c7 : ch = Control.Backspace
  · rw [if_pos c7]
    obtain ⟨d1, h1, _, h3, h4⟩ := delete_prev_inv d hc
    rw [h1]
    exact ⟨_, rfl, process_end_inv d1 h3 h4⟩
  rw [if_neg c7]
  by_cases c8 : ch = KEY_DC
  · rw [if_pos c8]
    exact ⟨_, rfl, process_end_inv _ (delete_next_inv d hc).2.1 (delete_next_inv d hc).2.2⟩
  rw [if_neg c8]
  by_cases c9 : ch < 32 ∨ ch > 127
  · rw [if_pos c9]; exact ⟨_, rfl, process_end_inv d hc hm⟩
  rw [if_neg c9]
  by_cases c10 : ch ≥ 48 ∧ ch ≤ 57 ∧ d._suggestion_selected = true
  · rw [if_pos c10]; exact ⟨_, rfl, select_suggestion_inv d _ hc hm⟩
  rw [if_neg c10]
  by_cases c11 : (!d._layout.show_value && decide (ch = 89 ∨ ch = 121)) = true
  · rw [if_pos c11]; exact ⟨_, rfl, hc, hm⟩
  rw [if_neg c11]
  by_cases c12 : (!d._layout.show_value && decide (ch = 78 ∨ ch = 110)) = true
  · rw [if_pos c12]; exact ⟨_, rfl, hc, hm⟩
  rw [if_neg c12]
  obtain ⟨d1, h1, _, h3, h4⟩ := key_insert_inv d ch hc
  rw [h1]
  exact ⟨_, rfl, process_end_inv d1 h3 h4⟩

/-- A session from a dialog with the two invariants has a final state with them. -/
theorem dialog_run_inv : ∀ (events : List Int) (d : Dialog), cursor_in_bounds d →
    suggestion_mirrors d →
    ∃ d1, dialog_run d events = some d1 ∧ cursor_in_bounds d1 ∧ suggestion_mirrors d1
  | [], d, hc, hm => ⟨d, rfl, hc, hm⟩
  | ch :: rest, d, hc, hm => by
    obtain ⟨o, h1, h2, h3⟩ := process_inv d ch hc hm
    simp only [dialog_run, h1]
    split
    · exact dialog_run_inv rest o.dialog h2 h3
    · exact ⟨_, rfl, h2, h3⟩

/-- The constructor gives a dialog with the two invariants. -/
theorem dialog_new_inv (layout : Layout) :
    cursor_in_bounds (Dialog.new layout) ∧ suggestion_mirrors (Dialog.new layout) := by
  unfold cursor_in_bounds suggestion_mirrors
  by_cases hv : layout.value = []
  · cases ho : layout.options with
    | nil => simp [Dialog.new, Dialog.members, hv, ho]
    | cons o rest => simp [Dialog.new, Dialog.members, hv, ho]
  · have hv' : layout.value.isEmpty = false := by
      cases hval : layout.value with
      | nil => exact absurd hval hv
      | cons c cs => rfl
    simp [Dialog.new, Dialog.members, hv']
/-- C13, counterexample: the dialog built from the empty value and the options main.cpp
and main.rs has the cursor at 8, the length of main.cpp; after the Down arrow suggestion 1
is selected, the value is main.rs of length 7, and the cursor is still at 8. -/
theorem cursor_past_value_with_suggestion :
    (dialog_run (Dialog.new main_layout) [KEY_DOWN]).map
        (fun d => (d._suggestion_selected, d._sugg_item, d._layout.value.length, d._cursor_pos))
      = some (true, 1, 7, 8) := by
  decide

/-- C13, amended: in the state a session leaves after any sequence of events, started
from the constructor on any layout, the cursor is at most the length of the value whenever
the dialog is in field editing; every such session has a final state. -/
theorem cursor_in_bounds_in_field_editing (layout : Layout) (events : List Int) :
    ∃ d, dialog_run (Dialog.new layout) events = some d ∧
      (d._suggestion_selected = false → d._cursor_pos ≤ d._layout.value.length) := by
  obtain ⟨d, h1, h2, _⟩ := dialog_run_inv events (Dialog.new layout)
    (dialog_new_inv layout).1 (dialog_new_inv layout).2
  exact ⟨d, h1, h2⟩

/-- C13, witness: after Down and Left the dialog on main.cpp and main.rs is in field
editing with the cursor at the end of main.rs. -/
theorem cursor_in_bounds_in_field_editing_witness :
    ∃ d, dialog_run (Dialog.new main_layout) [KEY_DOWN, KEY_LEFT] = some d ∧
      d._suggestion_selected = false ∧ d._cursor_pos ≤ d._layout.value.length := by
  obtain ⟨d, h1, h2⟩ := cursor_in_bounds_in_field_editing main_layout [KEY_DOWN, KEY_LEFT]
  have hs : (dialog_run (Dialog.new main_layout) [KEY_DOWN, KEY_LEFT]).map
      (fun x => x._suggestion_selected) = some false := by decide
  rw [h1] at hs
  have hs' : d._suggestion_selected = false := by simpa using hs
  exact ⟨d, h1, hs', h2 hs'⟩

/-- C14: in the state a session leaves after any sequence of events, started from the
constructor on any layout, a selected suggestion has an index among the options and the
value is that option; and each of the text edits (`delete_prev`, `delete_next`,
`key_insert`) applied to that state has a result that is in field editing, so the value
is text-edited in field editing only. -/
theorem suggestion_selected_mirrors_option (layout : Layout) (events : List Int) :
    ∃ d, dialog_run (Dialog.new layout) events = some d ∧
      (d._suggestion_selected = true →
        d._sugg_item < d._layout.options.length ∧
        d._layout.options[d._sugg_item]? = some d._layout.value) ∧
      (∃ d1, delete_prev d = some d1 ∧ d1._suggestion_selected = false) ∧
      (delete_next d)._suggestion_selected = false ∧
      (∀ ch, ∃ d1, key_insert d ch = some d1 ∧ d1._suggestion_selected = false) := by
  obtain ⟨d, h1, h2, h3⟩ := dialog_run_inv events (Dialog.new layout)
    (dialog_new_inv layout).1 (dialog_new_inv layout).2
  refine ⟨d, h1, ?_, ?_, (delete_next_inv d h2).1, ?_⟩
  · intro hs
    have hm := h3 hs
    exact ⟨(List.getElem?_eq_some.mp hm).1, hm⟩
  · obtain ⟨d1, e1, e2, _⟩ := delete_prev_inv d h2
    exact ⟨d1, e1, e2⟩
  · intro ch
    obtain ⟨d1, e1, e2, _⟩ := key_insert_inv d ch h2
    exact ⟨d1, e1, e2⟩

/-- C14, witness: after Down, Down, Up on the options a, b, c suggestion 1 is selected and
the value is b. -/
theorem suggestion_selected_mirrors_option_witness :
    ∃ d, dialog_run (Dialog.new abc_layout) [KEY_DOWN, KEY_DOWN, KEY_UP] = some d ∧
      d._suggestion_selected = true ∧
      d._sugg_item < d._layout.options.length ∧
      d._layout.options[d._sugg_item]? = some d._layout.value ∧
      (dialog_run (Dialog.new abc_layout) [KEY_DOWN, KEY_DOWN, KEY_UP]).map
        (fun x => (x._sugg_item, x._layout.value)) = some (1, ['b']) := by
  obtain ⟨d, h1, h2, _⟩ :=
    suggestion_selected_mirrors_option abc_layout [KEY_DOWN, KEY_DOWN, KEY_UP]
  have hs : (dialog_run (Dialog.new abc_layout) [KEY_DOWN, KEY_DOWN, KEY_UP]).map
      (fun x => x._suggestion_selected) = some true := by decide
  rw [h1] at hs
  have hs' : d._suggestion_selected = true := by simpa using hs
  exact ⟨d, h1, hs', (h2 hs').1, (h2 hs').2, by decide⟩

/-- C19, counterexample: the yes/no dialog does not show its value; typing `o` all the
same inserts it, the value is then `o`, and `y` next hands that typed value to the yes
callback. -/
theorem typed_text_reaches_yes_callback :
    (Dialog.new yes_no_layout)._layout.show_value = false ∧
    (Dialog.new yes_no_layout)._layout.value = [] ∧
    (process (Dialog.new yes_no_layout) 111).map (fun o => (o.result, o.dialog._layout.value))
      = some (true, ['o']) ∧
    ((process (Dialog.new yes_no_layout) 111).bind (fun o => process o.dialog 121)).map
      (fun o => (o.result, o.calls)) = some (false, [HostCall.yes ['o']]) := by
  refine ⟨?_, ?_, ?_, ?_⟩ <;> decide

/-- C19, amended: when the value is not shown, a character from 32 to 127 is handled as
follows. `Y`, `y` end the session handing the value to the yes callback and `N`, `n` to
the no callback (a layout without the callback has none to call). Any other character,
unless it is a digit typed while a suggestion is selected, is inserted into the value at
the cursor after the switch to field editing, as it is when the value is shown. -/
theorem printable_inserted_when_value_hidden (d : Dialog) (ch : Int)
    (hv : d._layout.show_value = false) (h1 : 32 ≤ ch) (h2 : ch ≤ 127)
    (hc : cursor_in_bounds d) :
    ((ch = 89 ∨ ch = 121) → process d ch =
      some ⟨false, d, if d._layout.yes then [HostCall.yes d._layout.value] else []⟩) ∧
    ((ch = 78 ∨ ch = 110) → process d ch =
      some ⟨false, d, if d._layout.no then [HostCall.no d._layout.value] else []⟩) ∧
    (ch ≠ 89 → ch ≠ 121 → ch ≠ 78 → ch ≠ 110 →
      ¬ (48 ≤ ch ∧ ch ≤ 57 ∧ d._suggestion_selected = true) →
      ∃ o, process d ch = some o ∧ o.result = true ∧ o.calls = [] ∧
        o.dialog._suggestion_selected = false ∧
        o.dialog._layout.value =
          d._layout.value.take (select_field d)._cursor_pos ++
            Char.ofNat ch.toNat :: d._layout.value.drop (select_field d)._cursor_pos ∧
        o.dialog._layout.value.length = d._layout.value.length + 1 ∧
        o.dialog._cursor_pos = (select_field d)._cursor_pos + 1) := by
  have hp := process_printable d ch h1 h2
  obtain ⟨_, s2, s3⟩ := select_field_spec d
  have hb := s3 hc
  refine ⟨?_, ?_, ?_⟩
  · intro hy
    have hnd : ¬ (ch ≥ 48 ∧ ch ≤ 57 ∧ d._suggestion_selected = true) := by omega
    rw [hp, if_neg hnd, if_pos (by simp [hv, hy])]
  · intro hn
    have hnd : ¬ (ch ≥ 48 ∧ ch ≤ 57 ∧ d._suggestion_selected = true) := by omega
    have hny : ¬ (ch = 89 ∨ ch = 121) := by omega
    rw [hp, if_neg hnd, if_neg (by simp [hv, hny]), if_pos (by simp [hv, hn])]
  · intro n1 n2 n3 n4 hnd
    have hnd' : ¬ (ch ≥ 48 ∧ ch ≤ 57 ∧ d._suggestion_selected = true) := hnd
    have hny : ¬ (ch = 89 ∨ ch = 121) := by omega
    have hnn : ¬ (ch = 78 ∨ ch = 110) := by omega
    rw [hp, if_neg hnd', if_neg (by simp [hv, hny]), if_neg (by simp [hv, hnn])]
    have hk : key_insert d ch = some { select_field d with
        _layout := { (select_field d)._layout with
          value := (select_field d)._layout.value.take (select_field d)._cursor_pos ++
            Char.ofNat ch.toNat ::
              (select_field d)._layout.value.drop (select_field d)._cursor_pos }
        _cursor_pos := (select_field d)._cursor_pos + 1
        _repaint := true } := by
      unfold key_insert
      simp only
      rw [if_pos hb]
    rw [hk]
    obtain ⟨e1, e2, e3, e4, _, e6⟩ := process_end_fields { select_field d with
        _layout := { (select_field d)._layout with
          value := (select_field d)._layout.value.take (select_field d)._cursor_pos ++
            Char.ofNat ch.toNat ::
              (select_field d)._layout.value.drop (select_field d)._cursor_pos }
        _cursor_pos := (select_field d)._cursor_pos + 1
        _repaint := true }
    refine ⟨_, rfl, e1, e2, ?_, ?_, ?_, ?_⟩
    · rw [e4]; exact (select_field_spec d).1
    · rw [e3, s2]
    · rw [e3]
      rw [s2] at hb
      simp only [s2, List.length_append, List.length_take, List.length_cons, List.length_drop]
      omega
    · rw [e6]

/-- C19, witness: typing `o` into the yes/no dialog, whose value is not shown. -/
theorem printable_inserted_when_value_hidden_witness :
    (Dialog.new yes_no_layout)._layout.show_value = false ∧
    cursor_in_bounds (Dialog.new yes_no_layout) ∧
    ∃ o, process (Dialog.new yes_no_layout) 111 = some o ∧ o.result = true ∧ o.calls = [] ∧
      o.dialog._layout.value.length = (Dialog.new yes_no_layout)._layout.value.length + 1 :=
  ⟨by decide, (dialog_new_inv yes_no_layout).1,
    ((printable_inserted_when_value_hidden (Dialog.new yes_no_layout) 111 (by decide)
      (by decide) (by decide) (dialog_new_inv yes_no_layout).1).2.2 (by decide) (by decide)
      (by decide) (by decide) (by decide)).imp
      (fun _ h => ⟨h.1, h.2.1, h.2.2.1, h.2.2.2.2.2.1⟩)⟩

/-! ## The indents of adjacent rows -/

theorem forest_rows_head? (exp : Finset Str) (f : List DirTree) (ind : Nat) (y : row_t)
    (h : y ∈ (forest_rows exp ind f).head?) : y.indent = ind := by
  obtain ⟨rs, hrs⟩ := List.head?_eq_some_iff.mp h
  exact forest_rows_head exp f ind y rs hrs

/-- In the rows of a forest every row may follow the one before it. -/
theorem forest_rows_chain (exp : Finset Str) : ∀ (f : List DirTree) (ind : Nat),
    List.Chain' indent_step (forest_rows exp ind f)
  | [], ind => by simp [forest_rows]
  | .mk p n k m its :: rest, ind => by
    have h1 := forest_rows_chain exp its (ind + 1)
    have h2 := forest_rows_chain exp rest ind
    rw [forest_rows_cons]
    have hsub : List.Chain' indent_step
        (if p ∈ exp then forest_rows exp (ind + 1) its else []) := by
      split
      · exact h1
      · exact List.chain'_nil
    have hsub_ind : ∀ x ∈ (if p ∈ exp then forest_rows exp (ind + 1) its else []),
        ind + 1 ≤ x.indent ∧ p ∈ exp := by
      intro x hx
      by_cases hp : p ∈ exp
      · simp only [hp, if_true] at hx
        exact ⟨(forest_rows_mem exp its (ind + 1) x hx).1, hp⟩
      · simp [hp] at hx
    refine List.Chain'.cons' (List.Chain'.append hsub h2 ?_) ?_
    · intro x hx y hy
      have := (hsub_ind x (List.mem_of_mem_getLast? hx)).1
      have := forest_rows_head? exp rest ind y hy
      left; omega
    · intro y hy
      rw [List.head?_append] at hy
      cases hh : (if p ∈ exp then forest_rows exp (ind + 1) its else []).head? with
      | none =>
        rw [hh] at hy
        have := forest_rows_head? exp rest ind y (by simpa using hy)
        left; show y.indent ≤ ind; omega
      | some z =>
        rw [hh] at hy
        have hyz : y = z := by simpa using hy.symm
        have hz := hsub_ind z (List.mem_of_mem_head? hh)
        have hz2 : z.indent = ind + 1 := by
          have hp := hz.2
          simp only [hp, if_true] at hh
          exact forest_rows_head? exp its (ind + 1) z hh
        right
        rw [hyz]
        exact ⟨hz2, by simp [hz.2]⟩

theorem indent_step_flag (x y : row_t) (flag : Bool) (h : indent_step x y) :
    indent_step x { y with expanded := flag } := h

/-- Collapsing a row keeps the indents of adjacent rows in step. -/
theorem chain_collapse (pre post : List row_t) (r : row_t)
    (h : List.Chain' indent_step (pre ++ r :: post)) :
    List.Chain' indent_step (pre ++ { r with expanded := false } ::
      post.dropWhile (fun x => decide (x.indent ≥ r.indent + 1))) := by
  rw [List.chain'_split] at h ⊢
  obtain ⟨h1, h2⟩ := h
  constructor
  · rw [List.chain'_append] at h1 ⊢
    refine ⟨h1.1, List.chain'_singleton _, ?_⟩
    intro x hx y hy
    have hy' : y = { r with expanded := false } := by simpa using hy.symm
    rw [hy']
    exact h1.2.2 x hx r (by simp)
  · obtain ⟨k, _, hk2, _, hk4⟩ := dropWhile_eq_drop
      (fun x => decide (x.indent ≥ r.indent + 1)) post
    refine List.Chain'.cons' ?_ ?_
    · rw [hk2]
      exact (List.Chain'.tail h2).drop k
    · intro y hy
      rw [hk2, List.head?_drop] at hy
      have := hk4 y hy
      simp only [decide_eq_false_iff_not] at this
      left; show y.indent ≤ r.indent; omega

/-- Expanding a row that is not marked expanded keeps the indents of adjacent rows in
step. -/
theorem chain_expand (exp : Finset Str) (pre post : List row_t) (r : row_t)
    (hr : r.expanded = false) (h : List.Chain' indent_step (pre ++ r :: post)) :
    List.Chain' indent_step (pre ++ { r with expanded := true } ::
      (forest_rows exp (r.indent + 1) r.entry.items ++ post)) := by
  rw [List.chain'_split] at h ⊢
  obtain ⟨h1, h2⟩ := h
  have hpost : ∀ y ∈ post.head?, y.indent ≤ r.indent := by
    intro y hy
    rcases (List.chain'_cons'.mp h2).1 y hy with hle | ⟨_, he⟩
    · exact hle
    · rw [hr] at he; exact absurd he (by simp)
  constructor
  · rw [List.chain'_append] at h1 ⊢
    refine ⟨h1.1, List.chain'_singleton _, ?_⟩
    intro x hx y hy
    have hy' : y = { r with expanded := true } := by simpa using hy.symm
    rw [hy']
    exact h1.2.2 x hx r (by simp)
  · refine List.Chain'.cons' (List.Chain'.append (forest_rows_chain exp _ _)
      (List.Chain'.tail h2) ?_) ?_
    · intro x hx y hy
      have := (forest_rows_mem exp _ _ x (List.mem_of_mem_getLast? hx)).1
      have := hpost y hy
      left; omega
    · intro y hy
      rw [List.head?_append] at hy
      cases hh : (forest_rows exp (r.indent + 1) r.entry.items).head? with
      | none =>
        rw [hh] at hy
        left; exact hpost y (by simpa using hy)
      | some z =>
        rw [hh] at hy
        have hyz : y = z := by simpa using hy.symm
        right
        rw [hyz]
        exact ⟨forest_rows_head? exp _ _ z hh, rfl⟩

theorem head_indent_splice (pre post1 post2 : List row_t) (r : row_t) (flag : Bool)
    (h : ∀ x ∈ (pre ++ r :: post1).head?, x.indent = 0) :
    ∀ x ∈ (pre ++ { r with expanded := flag } :: post2).head?, x.indent = 0 := by
  cases pre with
  | nil =>
    intro x hx
    have hx' : x = { r with expanded := flag } := by simpa using hx.symm
    rw [hx']
    exact h r (by simp)
  | cons a pre1 =>
    intro x hx
    exact h x (by simpa using hx)

/-- One `toggle` keeps the first row at indent 0 and the indents of adjacent rows in
step. -/
theorem toggle_indent (b : Browser) (h : b._selection < b._list.length)
    (hc : List.Chain' indent_step b._list) (h0 : ∀ x ∈ b._list.head?, x.indent = 0) :
    ∃ b1, toggle b = some b1 ∧ b1._list ≠ [] ∧ List.Chain' indent_step b1._list ∧
      ∀ x ∈ b1._list.head?, x.indent = 0 := by
  have hsplit : b._list = b._list.take b._selection ++
      b._list[b._selection] :: b._list.drop (b._selection + 1) := by
    rw [← List.drop_eq_getElem_cons h, List.take_append_drop]
  have hne : b._list ≠ [] := by
    intro he; rw [he] at h; simp at h
  rw [toggle_eq b h]
  refine ⟨_, rfl, ?_⟩
  rw [hsplit] at hc h0
  by_cases hd : (b._list[b._selection]).entry.is_directory = true
  · simp only [hd, Bool.not_true, Bool.false_eq_true, if_false]
    by_cases he : (b._list[b._selection]).expanded = true
    · simp only [he, if_true]
      exact ⟨by simp, chain_collapse _ _ _ hc, head_indent_splice _ _ _ _ _ h0⟩
    · simp only [he, Bool.false_eq_true, if_false]
      exact ⟨by simp, chain_expand _ _ _ _ (by simpa using he) hc,
        head_indent_splice _ _ _ _ _ h0⟩
  · simp only [hd, Bool.not_false, if_true, Bool.false_eq_true, if_false,
      clear_filter_list]
    rw [← hsplit] at hc h0
    exact ⟨hne, hc, h0⟩

/-- The list that `build_list` leaves has its first row at indent 0 and the indents of
adjacent rows in step. -/
theorem build_list_indent (b : Browser) :
    (build_list b)._list ≠ [] ∧ List.Chain' indent_step (build_list b)._list ∧
    ∀ x ∈ (build_list b)._list.head?, x.indent = 0 := by
  rw [build_list_list]
  split
  · refine ⟨by simp, List.chain'_singleton _, ?_⟩
    intro x hx
    have : x = ⟨0, false, b._tree⟩ := by simpa using hx.symm
    rw [this]
  · rename_i hne
    refine ⟨?_, forest_rows_chain _ _ _, fun x hx => forest_rows_head? _ _ _ x hx⟩
    intro he
    rw [he] at hne
    exact hne rfl

theorem toggles_indent : ∀ (sels : List Nat) (b b1 : Browser),
    b._list ≠ [] → List.Chain' indent_step b._list → (∀ x ∈ b._list.head?, x.indent = 0) →
    toggles b sels = some b1 →
    b1._list ≠ [] ∧ List.Chain' indent_step b1._list ∧ ∀ x ∈ b1._list.head?, x.indent = 0
  | [], b, b1, hne, hc, h0, hrun => by
    simp only [toggles, Option.some.injEq] at hrun
    subst hrun
    exact ⟨hne, hc, h0⟩
  | s :: rest, b, b1, _, hc, h0, hrun => by
    simp only [toggles] at hrun
    by_cases hs : s < b._list.length
    · rw [toggle_at_eq b s hs] at hrun
      obtain ⟨b2, h1, h2, h3, h4⟩ := toggle_indent { b with _selection := s } hs hc h0
      rw [h1] at hrun
      simp only [Option.some_bind] at hrun
      exact toggles_indent rest b2 b1 h2 h3 h4 hrun
    · simp [toggle_at, hs] at hrun

theorem chain_getElem? {R : row_t → row_t → Prop} : ∀ (l : List row_t) (i : Nat) (x y : row_t),
    List.Chain' R l → l[i]? = some x → l[i + 1]? = some y → R x y
  | [], _, _, _, _, hx, _ => by simp at hx
  | [_], _, _, _, _, _, hy => by simp at hy
  | a :: c :: t, 0, x, y, hc, hx, hy => by
    simp only [List.getElem?_cons_zero, Option.some.injEq] at hx
    simp only [List.getElem?_cons_succ, List.getElem?_cons_zero, Option.some.injEq] at hy
    rw [← hx, ← hy]
    exact (List.chain'_cons.mp hc).1
  | a :: c :: t, i + 1, x, y, hc, hx, hy => by
    simp only [List.getElem?_cons_succ] at hx hy
    exact chain_getElem? (c :: t) i x y (List.chain'_cons.mp hc).2 hx
      (by simpa using hy)

/-- C18: after `build_list` and any sequence of `toggle` calls with the selection on a row
of the list, the first row has indent 0, and of two adjacent rows the second has an
indent at most that of the first or exactly one more; it is one more only when the first
is marked expanded. -/
theorem toggles_keep_indents (b0 : Browser) (sels : List Nat) (b : Browser)
    (hrun : toggles (build_list b0) sels = some b) :
    (∃ r, b._list[0]? = some r ∧ r.indent = 0) ∧
    (∀ i x y, b._list[i]? = some x → b._list[i + 1]? = some y →
      (y.indent = x.indent + 1 ∨ y.indent ≤ x.indent) ∧
      (y.indent = x.indent + 1 → x.expanded = true)) := by
  obtain ⟨i1, i2, i3⟩ := build_list_indent b0
  obtain ⟨hne, hc, h0⟩ := toggles_indent sels (build_list b0) b i1 i2 i3 hrun
  constructor
  · cases hl : b._list with
    | nil => exact absurd hl hne
    | cons r rs =>
      refine ⟨r, by simp, h0 r (by rw [hl]; simp)⟩
  · intro i x y hx hy
    rcases chain_getElem? b._list i x y hc hx hy with hle | ⟨h1, h2⟩
    · exact ⟨Or.inr hle, fun h => by omega⟩
    · exact ⟨Or.inl h1, fun _ => h2⟩

/-- C18, witness: on `nested_tree` with `/r/a` expanded, after the toggles at rows 0, 0, 2
and 1 the rows a, x, s, y, b have the indents 0, 1, 1, 2, 0. -/
theorem toggles_keep_indents_witness :
    (toggles (build_list (fresh_browser nested_tree {"/r/a".toList} 0)) [0, 0, 2, 1]).map
      (fun b => b._list.map (fun r => (r.indent, r.expanded))) =
      some [(0, true), (1, false), (1, true), (2, false), (0, false)] ∧
    ∃ b, toggles (build_list (fresh_browser nested_tree {"/r/a".toList} 0)) [0, 0, 2, 1]
        = some b ∧
      (∃ r, b._list[0]? = some r ∧ r.indent = 0) ∧
      (∀ i x y, b._list[i]? = some x → b._list[i + 1]? = some y →
        (y.indent = x.indent + 1 ∨ y.indent ≤ x.indent) ∧
        (y.indent = x.indent + 1 → x.expanded = true)) := by
  have hs : (toggles (build_list (fresh_browser nested_tree {"/r/a".toList} 0))
      [0, 0, 2, 1]).isSome = true := by decide
  obtain ⟨b, hb⟩ := Option.isSome_iff_exists.mp hs
  exact ⟨by rfl, b, hb,
    toggles_keep_indents (fresh_browser nested_tree {"/r/a".toList} 0) [0, 0, 2, 1] b hb⟩
/-! ## The expanded flag and the expansion-state set -/

/-- On a root without children, a run of `toggle` calls from the single placeholder row
whose flag says whether the root's path is in the set ends in such a row. -/
theorem toggles_placeholder : ∀ (sels : List Nat) (b b1 : Browser),
    b._tree.items = [] →
    b._list = [⟨0, decide (b._tree.path ∈ b._expanded_items), b._tree⟩] →
    toggles b sels = some b1 →
    b1._tree = b._tree ∧
    b1._list = [⟨0, decide (b1._tree.path ∈ b1._expanded_items), b1._tree⟩]
  | [], b, b1, _, hl, hrun => by
    simp only [toggles, Option.some.injEq] at hrun
    subst hrun
    exact ⟨rfl, hl⟩
  | s :: rest, b, b1, hc, hl, hrun => by
    simp only [toggles] at hrun
    by_cases hs : s < b._list.length
    · rw [toggle_at_eq b s hs] at hrun
      have hs0 : s = 0 := by rw [hl] at hs; simpa using hs
      subst hs0
      have e1 := toggle_eq_row { b with _selection := 0 }
        ⟨0, decide (b._tree.path ∈ b._expanded_items), b._tree⟩ (by simp [hl])
      rw [e1] at hrun
      simp only [Option.some_bind] at hrun
      by_cases hd : b._tree.is_directory = true
      · by_cases hq : b._tree.path ∈ b._expanded_items
        · simp only [hd, hq, decide_True, Bool.not_true, Bool.false_eq_true, if_false,
            if_true, hl, List.take_zero, List.nil_append, List.drop_succ_cons,
            List.drop_nil, List.dropWhile_nil] at hrun
          have ih := toggles_placeholder rest _ b1 (by simpa [clear_filter_tree] using hc)
            (by simp [clear_filter_tree, clear_filter_expanded_items]) hrun
          exact ⟨ih.1.trans (clear_filter_tree _), ih.2⟩
        · simp only [hd, hq, decide_False, Bool.not_true, Bool.false_eq_true, if_false,
            hl, List.take_zero, List.nil_append, List.drop_succ_cons, List.drop_nil,
            List.append_nil, hc, forest_rows] at hrun
          have ih := toggles_placeholder rest _ b1 (by simpa [clear_filter_tree] using hc)
            (by simp [clear_filter_tree, clear_filter_expanded_items]) hrun
          exact ⟨ih.1.trans (clear_filter_tree _), ih.2⟩
      · simp only [hd, Bool.not_false, if_true] at hrun
        have ih := toggles_placeholder rest _ b1 (by simpa [clear_filter_tree] using hc)
          (by simp [clear_filter_tree, clear_filter_expanded_items, clear_filter_list, hl])
          hrun
        exact ⟨ih.1.trans (clear_filter_tree _), ih.2⟩
    · simp [toggle_at, hs] at hrun

/-- C17, counterexample: for the directory `/e` without children and the set holding
`/e`, `build_list` makes the placeholder row with the flag false although its node is a
directory whose path is in the set. -/
theorem placeholder_flag_ignores_set :
    (toggles (build_list (fresh_browser empty_tree {"/e".toList} 0)) []).map
      (fun b => b._list.map (fun r =>
        (r.expanded, r.entry.is_directory, decide (r.entry.path ∈ b._expanded_items)))) =
      some [(false, true, true)] := by
  rfl

/-- C17, amended: on a tree with distinct paths, when the root has a child or the root's
path is not in the initial set, after `build_list` and any sequence of `toggle` calls with
the selection on a row of the list every row of a directory is marked expanded exactly
when the path of its node is in the expansion-state set. -/
theorem toggles_flags_follow_set (b0 : Browser) (sels : List Nat) (b : Browser)
    (hu : (tree_paths b0._tree).Nodup)
    (hroot : b0._tree.items ≠ [] ∨ b0._tree.path ∉ b0._expanded_items)
    (hrun : toggles (build_list b0) sels = some b) :
    ∀ x ∈ b._list, x.entry.is_directory = true →
      (x.expanded = true ↔ x.entry.path ∈ b._expanded_items) := by
  have key : ∀ x ∈ b._list, x.expanded = decide (x.entry.path ∈ b._expanded_items) := by
    by_cases hc : b0._tree.items = []
    · have hq : b0._tree.path ∉ b0._expanded_items := by
        rcases hroot with h | h
        · exact absurd hc h
        · exact h
      have hl : (build_list b0)._list =
          [⟨0, decide ((build_list b0)._tree.path ∈ (build_list b0)._expanded_items),
            (build_list b0)._tree⟩] := by
        rw [build_list_list, hc]
        have h1 : (build_list b0)._tree = b0._tree := rfl
        have h2 : (build_list b0)._expanded_items = b0._expanded_items := rfl
        simp [forest_rows, h1, h2, hq]
      obtain ⟨_, h2⟩ := toggles_placeholder sels (build_list b0) b hc hl hrun
      intro x hx
      rw [h2] at hx
      have : x = ⟨0, decide (b._tree.path ∈ b._expanded_items), b._tree⟩ := by
        simpa using hx
      rw [this]
    · exact toggles_flags b0 sels b hu hc hrun
  intro x hx _
  rw [key x hx]
  simp

/-- C17, witness: on `nested_tree` with `/r/a` expanded, after the toggles at rows 0, 0, 2
and 1 the directories a and s are marked expanded and their paths are in the set. -/
theorem toggles_flags_follow_set_witness :
    (tree_paths (fresh_browser nested_tree {"/r/a".toList} 0)._tree).Nodup ∧
    (fresh_browser nested_tree {"/r/a".toList} 0)._tree.items ≠ [] ∧
    ∃ b, toggles (build_list (fresh_browser nested_tree {"/r/a".toList} 0)) [0, 0, 2, 1]
        = some b ∧
      ∀ x ∈ b._list, x.entry.is_directory = true →
        (x.expanded = true ↔ x.entry.path ∈ b._expanded_items) := by
  have hs : (toggles (build_list (fresh_browser nested_tree {"/r/a".toList} 0))
      [0, 0, 2, 1]).isSome = true := by decide
  have hu : (tree_paths (fresh_browser nested_tree {"/r/a".toList} 0)._tree).Nodup := by
    decide
  have hc : (fresh_browser nested_tree {"/r/a".toList} 0)._tree.items ≠ [] :=
    List.cons_ne_nil _ _
  obtain ⟨b, hb⟩ := Option.isSome_iff_exists.mp hs
  exact ⟨hu, hc, b, hb,
    toggles_flags_follow_set (fresh_browser nested_tree {"/r/a".toList} 0) [0, 0, 2, 1] b
      hu (Or.inl hc) hb⟩

/-! ## The dialog: insert and Backspace in field editing -/

theorem select_field_of_field (d : Dialog) (hs : d._suggestion_selected = false) :
    select_field d = d := by
  simp [select_field, hs]

theorem process_backspace (d : Dialog) :
    process d Control.Backspace = (delete_prev d).map process_end := by
  simp [process, Control.Backspace, Control.Escape, Control.Close, Control.Return,
    Control.Enter, KEY_LEFT, KEY_RIGHT, KEY_UP, KEY_DOWN]

theorem eraseIdx_inserted (l : List Char) (c : Nat) (x : Char) (h : c ≤ l.length) :
    (l.take c ++ x :: l.drop c).eraseIdx c = l := by
  have hl : (l.take c).length = c := by simp [List.length_take]; omega
  rw [List.eraseIdx_append_of_length_le (by omega), hl]
  simp

/-- C21: in field editing with the value shown and the cursor inside the value or at its
end, a character from 32 to 127 is inserted at the cursor and the cursor moves one to the
right; a Backspace next gives back the value and the cursor as they were, still in field
editing. Both events make no host call and `process` returns true. -/
theorem insert_backspace_round_trip (d : Dialog) (ch : Int)
    (hs : d._suggestion_selected = false) (hv : d._layout.show_value = true)
    (hc : d._cursor_pos ≤ d._layout.value.length) (h1 : 32 ≤ ch) (h2 : ch ≤ 127) :
    ∃ o1, process d ch = some o1 ∧ o1.result = true ∧ o1.calls = [] ∧
      o1.dialog._suggestion_selected = false ∧
      o1.dialog._layout.value =
        d._layout.value.take d._cursor_pos ++
          Char.ofNat ch.toNat :: d._layout.value.drop d._cursor_pos ∧
      o1.dialog._cursor_pos = d._cursor_pos + 1 ∧
      ∃ o2, process o1.dialog Control.Backspace = some o2 ∧ o2.result = true ∧
        o2.calls = [] ∧ o2.dialog._suggestion_selected = false ∧
        o2.dialog._layout = d._layout ∧ o2.dialog._cursor_pos = d._cursor_pos ∧
        o2.dialog._sugg_item = d._sugg_item := by
  have hnd : ¬ (ch ≥ 48 ∧ ch ≤ 57 ∧ d._suggestion_selected = true) := by
    rw [hs]; simp
  have hk : key_insert d ch = some { d with
      _layout := { d._layout with
        value := d._layout.value.take d._cursor_pos ++
          Char.ofNat ch.toNat :: d._layout.value.drop d._cursor_pos }
      _cursor_pos := d._cursor_pos + 1
      _repaint := true } := by
    unfold key_insert
    simp only [select_field_of_field d hs]
    rw [if_pos hc]
  rw [process_printable d ch h1 h2, if_neg hnd, if_neg (by simp [hv]), if_neg (by simp [hv]),
    hk]
  obtain ⟨e1, e2, e3, e4, e5, e6⟩ := process_end_fields { d with
      _layout := { d._layout with
        value := d._layout.value.take d._cursor_pos ++
          Char.ofNat ch.toNat :: d._layout.value.drop d._cursor_pos }
      _cursor_pos := d._cursor_pos + 1
      _repaint := true }
  refine ⟨_, rfl, e1, e2, by rw [e4]; exact hs, by rw [e3], by rw [e6], ?_⟩
  simp only [Option.map_some']
  generalize process_end { d with
      _layout := { d._layout with
        value := d._layout.value.take d._cursor_pos ++
          Char.ofNat ch.toNat :: d._layout.value.drop d._cursor_pos }
      _cursor_pos := d._cursor_pos + 1
      _repaint := true } = o1 at e1 e2 e3 e4 e5 e6 ⊢
  have f4 : o1.dialog._suggestion_selected = false := by rw [e4]; exact hs
  have hlen : o1.dialog._layout.value.length = d._layout.value.length + 1 := by
    rw [e3]
    simp only [List.length_append, List.length_take, List.length_cons, List.length_drop]
    omega
  have hd : delete_prev o1.dialog = some { o1.dialog with
      _cursor_pos := o1.dialog._cursor_pos - 1
      _layout := { o1.dialog._layout with
        value := o1.dialog._layout.value.eraseIdx (o1.dialog._cursor_pos - 1) }
      _repaint := true } := by
    unfold delete_prev
    simp only [select_field_of_field o1.dialog f4]
    have hne : o1.dialog._layout.value.isEmpty = false := by
      cases hval : o1.dialog._layout.value with
      | nil => rw [hval] at hlen; simp at hlen
      | cons a as => rfl
    rw [hne, e6]
    simp only [Bool.false_eq_true, if_false, Nat.add_sub_cancel]
    rw [if_neg (by omega), if_pos (by omega)]
  rw [process_backspace, hd]
  obtain ⟨g1, g2, g3, g4, g5, g6⟩ := process_end_fields { o1.dialog with
      _cursor_pos := o1.dialog._cursor_pos - 1
      _layout := { o1.dialog._layout with
        value := o1.dialog._layout.value.eraseIdx (o1.dialog._cursor_pos - 1) }
      _repaint := true }
  refine ⟨_, rfl, g1, g2, by rw [g4]; exact f4, ?_, ?_, by rw [g5]; exact e5⟩
  · rw [g3, e3, e6]
    simp only [Nat.add_sub_cancel, eraseIdx_inserted _ _ _ hc]
  · rw [g6, e6]
    simp

/-- C21, witness: in the dialog on main.cpp and main.rs, after Down and Left (field
editing, value main.rs, cursor at the end), typing `x` gives main.rsx and Backspace
gives main.rs back. -/
theorem insert_backspace_round_trip_witness :
    ∃ d, dialog_run (Dialog.new main_layout) [KEY_DOWN, KEY_LEFT] = some d ∧
      d._suggestion_selected = false ∧ d._layout.show_value = true ∧
      d._cursor_pos ≤ d._layout.value.length ∧
      (process d 120).map (fun o => o.dialog._layout.value) = some "main.rsx".toList ∧
      ∃ o1, process d 120 = some o1 ∧ o1.result = true ∧ o1.calls = [] ∧
        o1.dialog._suggestion_selected = false ∧
        o1.dialog._layout.value =
          d._layout.value.take d._cursor_pos ++
            Char.ofNat (120 : Int).toNat :: d._layout.value.drop d._cursor_pos ∧
        o1.dialog._cursor_pos = d._cursor_pos + 1 ∧
        ∃ o2, process o1.dialog Control.Backspace = some o2 ∧ o2.result = true ∧
          o2.calls = [] ∧ o2.dialog._suggestion_selected = false ∧
          o2.dialog._layout = d._layout ∧ o2.dialog._cursor_pos = d._cursor_pos ∧
          o2.dialog._sugg_item = d._sugg_item := by
  have hs : (dialog_run (Dialog.new main_layout) [KEY_DOWN, KEY_LEFT]).isSome = true := by
    decide
  obtain ⟨d, hd⟩ := Option.isSome_iff_exists.mp hs
  have h1 : (dialog_run (Dialog.new main_layout) [KEY_DOWN, KEY_LEFT]).map
      (fun x => (x._suggestion_selected, x._layout.show_value,
        decide (x._cursor_pos ≤ x._layout.value.length),
        (process x 120).map (fun o => o.dialog._layout.value)))
      = some (false, true, true, some "main.rsx".toList) := by decide
  rw [hd] at h1
  simp only [Option.map_some', Option.some.injEq, Prod.mk.injEq, decide_eq_true_eq] at h1
  obtain ⟨a1, a2, a3, a4⟩ := h1
  exact ⟨d, hd, a1, a2, a3, a4, insert_backspace_round_trip d 120 a1 a2 a3 (by decide)
    (by decide)⟩

/-! ## Toggling twice on the same row -/

/-- Two `toggle` calls in a row on a directory row give back the list and the set, when
the list is the rows of the root's items for the current set or, on a root without
children, the placeholder row whose flag says whether the root's path is in the set. -/
theorem toggle_twice_consistent (b : Browser) (r : row_t)
    (hu : (forest_paths b._tree.items).Nodup)
    (hcons : (b._tree.items ≠ [] ∧
        b._list = forest_rows b._expanded_items 0 b._tree.items) ∨
      (b._tree.items = [] ∧
        b._list = [⟨0, decide (b._tree.path ∈ b._expanded_items), b._tree⟩]))
    (hr : b._list[b._selection]? = some r)
    (hd : r.entry.is_directory = true) :
    ∃ b1 b2, toggle b = some b1 ∧ toggle b1 = some b2 ∧
      b2._list = b._list ∧ b2._expanded_items = b._expanded_items ∧
      b2._selection = b._selection ∧ b2._tree = b._tree ∧
      (r.expanded = true → ∃ run rest,
        b._list = b._list.take b._selection ++ r :: (run ++ rest) ∧
        b1._list = b._list.take b._selection ++ { r with expanded := false } :: rest ∧
        b2._list = b._list.take b._selection ++ r :: (run ++ rest)) := by
  obtain ⟨h, hrr⟩ := List.getElem?_eq_some.mp hr
  have hsplit : b._list = b._list.take b._selection ++ r :: b._list.drop (b._selection + 1) := by
    rw [← hrr, ← List.drop_eq_getElem_cons h, List.take_append_drop]
  have main : ∃ b1 b2, toggle b = some b1 ∧ toggle b1 = some b2 ∧
      b2._list = b._list ∧ b2._expanded_items = b._expanded_items ∧
      b2._selection = b._selection ∧ b2._tree = b._tree := by
    rcases hcons with ⟨_, hinv⟩ | ⟨hc, hl⟩
    · obtain ⟨b1, h1, h2, h3, h4, ⟨r1, h5, h6⟩, h7⟩ := toggle_forest_row b r hu hinv hr
      obtain ⟨b2, g1, g2, g3, g4, _, g7⟩ :=
        toggle_forest_row b1 r1 (by rw [h2]; exact hu) h4 h5
      have hset : b2._expanded_items = b._expanded_items := by
        rw [g7, h6, h7]
        simp only [hd, if_true]
        by_cases hq : r.entry.path ∈ b._expanded_items
        · simp [hq, Finset.insert_erase hq]
        · simp [hq, Finset.erase_insert hq]
      refine ⟨b1, b2, h1, g1, ?_, hset, g3.trans h3, g2.trans h2⟩
      rw [g4, hset, g2, h2, ← hinv]
    · have hs0 : b._selection = 0 := by rw [hl] at h; simpa using h
      have hr0 : r = ⟨0, decide (b._tree.path ∈ b._expanded_items), b._tree⟩ := by
        have := hr
        rw [hl, hs0] at this
        simpa using this.symm
      have hdt : b._tree.is_directory = true := by rw [hr0] at hd; exact hd
      have e1 := toggle_eq_row b r hr
      rw [hr0] at e1
      by_cases hq : b._tree.path ∈ b._expanded_items
      · simp only [hdt, hq, decide_True, Bool.not_true, Bool.false_eq_true, if_false,
          if_true, hl, hs0, List.take_zero, List.nil_append, List.drop_succ_cons,
          List.drop_nil, List.dropWhile_nil] at e1
        have e2 := toggle_eq_row { clear_filter b with
            _expanded_items := b._expanded_items.erase b._tree.path
            _list := [⟨0, false, b._tree⟩] } ⟨0, false, b._tree⟩
          (by simp [clear_filter_selection, hs0])
        simp only [hdt, Bool.not_true, Bool.false_eq_true, if_false, hc, forest_rows] at e2
        refine ⟨_, _, e1, e2, ?_, ?_, ?_, ?_⟩
        · simp [clear_filter_list, clear_filter_selection, hs0, hl, hq]
        · simp only [clear_filter_expanded_items]
          exact Finset.insert_erase hq
        · simp only [clear_filter_selection]
        · simp only [clear_filter_tree]
      · simp only [hdt, hq, decide_False, Bool.not_true, Bool.false_eq_true, if_false,
          hl, hs0, List.take_zero, List.nil_append, List.drop_succ_cons, List.drop_nil,
          List.append_nil, hc, forest_rows] at e1
        have e2 := toggle_eq_row { clear_filter b with
            _expanded_items := insert b._tree.path b._expanded_items
            _list := [⟨0, true, b._tree⟩] } ⟨0, true, b._tree⟩
          (by simp [clear_filter_selection, hs0])
        simp only [hdt, Bool.not_true, Bool.false_eq_true, if_false, if_true] at e2
        refine ⟨_, _, e1, e2, ?_, ?_, ?_, ?_⟩
        · simp [clear_filter_list, clear_filter_selection, hs0, hl, hq]
        · simp only [clear_filter_expanded_items]
          exact Finset.erase_insert hq
        · simp only [clear_filter_selection]
        · simp only [clear_filter_tree]
  obtain ⟨b1, b2, m1, m2, m3, m4, m5, m6⟩ := main
  refine ⟨b1, b2, m1, m2, m3, m4, m5, m6, ?_⟩
  intro hexp
  have e1 := toggle_eq_row b r hr
  simp only [hd, hexp, Bool.not_true, Bool.false_eq_true, if_false, if_true] at e1
  rw [m1] at e1
  simp only [Option.some.injEq] at e1
  refine ⟨(b._list.drop (b._selection + 1)).takeWhile
      (fun x => decide (x.indent ≥ r.indent + 1)),
    (b._list.drop (b._selection + 1)).dropWhile
      (fun x => decide (x.indent ≥ r.indent + 1)), ?_, ?_, ?_⟩
  · rw [List.takeWhile_append_dropWhile]; exact hsplit
  · rw [e1]
  · rw [m3, List.takeWhile_append_dropWhile]; exact hsplit

/-- On a root without children, a run of `toggle` calls from a single row for the root at
indent 0 ends in such a row. -/
theorem toggles_placeholder_shape : ∀ (sels : List Nat) (b b1 : Browser),
    b._tree.items = [] → (∃ flag, b._list = [⟨0, flag, b._tree⟩]) →
    toggles b sels = some b1 →
    b1._tree = b._tree ∧ ∃ flag, b1._list = [⟨0, flag, b1._tree⟩]
  | [], b, b1, _, hl, hrun => by
    simp only [toggles, Option.some.injEq] at hrun
    subst hrun
    exact ⟨rfl, hl⟩
  | s :: rest, b, b1, hc, ⟨flag, hl⟩, hrun => by
    simp only [toggles] at hrun
    by_cases hs : s < b._list.length
    · rw [toggle_at_eq b s hs] at hrun
      have hs0 : s = 0 := by rw [hl] at hs; simpa using hs
      subst hs0
      have e1 := toggle_eq_row { b with _selection := 0 } ⟨0, flag, b._tree⟩ (by simp [hl])
      rw [e1] at hrun
      simp only [Option.some_bind] at hrun
      by_cases hd : b._tree.is_directory = true
      · cases flag with
        | true =>
          simp only [hd, Bool.not_true, Bool.false_eq_true, if_false, if_true, hl,
            List.take_zero, List.nil_append, List.drop_succ_cons, List.drop_nil,
            List.dropWhile_nil] at hrun
          have ih := toggles_placeholder_shape rest _ b1
            (by simpa [clear_filter_tree] using hc)
            ⟨false, by simp [clear_filter_tree]⟩ hrun
          exact ⟨ih.1.trans (clear_filter_tree _), ih.2⟩
        | false =>
          simp only [hd, Bool.not_true, Bool.false_eq_true, if_false, hl, List.take_zero,
            List.nil_append, List.drop_succ_cons, List.drop_nil, List.append_nil, hc,
            forest_rows] at hrun
          have ih := toggles_placeholder_shape rest _ b1
            (by simpa [clear_filter_tree] using hc)
            ⟨true, by simp [clear_filter_tree]⟩ hrun
          exact ⟨ih.1.trans (clear_filter_tree _), ih.2⟩
      · simp only [hd, Bool.not_false, if_true] at hrun
        have ih := toggles_placeholder_shape rest _ b1
          (by simpa [clear_filter_tree] using hc)
          ⟨flag, by simp [clear_filter_tree, clear_filter_list, hl]⟩ hrun
        exact ⟨ih.1.trans (clear_filter_tree _), ih.2⟩
    · simp [toggle_at, hs] at hrun

/-- After `build_list` and any run of `toggle` calls the list is the rows of the root's
items for the current set or, on a root without children, a single row for the root;
that row is flagged by the set when the root's path was not in the initial set or when
the flags of the state reached agree with the set. -/
theorem toggles_consistent (b0 : Browser) (sels : List Nat) (b : Browser)
    (hu : (tree_paths b0._tree).Nodup)
    (hroot : b0._tree.items ≠ [] ∨ b0._tree.path ∉ b0._expanded_items ∨
      ∀ x ∈ b._list, x.expanded = decide (x.entry.path ∈ b._expanded_items))
    (hrun : toggles (build_list b0) sels = some b) :
    (forest_paths b._tree.items).Nodup ∧
    ((b._tree.items ≠ [] ∧ b._list = forest_rows b._expanded_items 0 b._tree.items) ∨
      (b._tree.items = [] ∧
        b._list = [⟨0, decide (b._tree.path ∈ b._expanded_items), b._tree⟩])) := by
  have hu' := tree_paths_nodup_items _ hu
  by_cases hc : b0._tree.items = []
  · have hshape : ∃ flag, (build_list b0)._list = [⟨0, flag, (build_list b0)._tree⟩] := by
      refine ⟨false, ?_⟩
      rw [build_list_list, hc]
      have h1 : (build_list b0)._tree = b0._tree := rfl
      simp [forest_rows, h1]
    rcases hroot with h | hq | hflag
    · exact absurd hc h
    · have hl : (build_list b0)._list =
          [⟨0, decide ((build_list b0)._tree.path ∈ (build_list b0)._expanded_items),
            (build_list b0)._tree⟩] := by
        rw [build_list_list, hc]
        have h1 : (build_list b0)._tree = b0._tree := rfl
        have h2 : (build_list b0)._expanded_items = b0._expanded_items := rfl
        simp [forest_rows, h1, h2, hq]
      obtain ⟨h1, h2⟩ := toggles_placeholder sels (build_list b0) b hc hl hrun
      have ht : b._tree = b0._tree := h1
      exact ⟨by rw [ht]; exact hu', Or.inr ⟨by rw [ht]; exact hc, h2⟩⟩
    · obtain ⟨h1, flag, h2⟩ := toggles_placeholder_shape sels (build_list b0) b hc hshape hrun
      have ht : b._tree = b0._tree := h1
      have hf := hflag ⟨0, flag, b._tree⟩ (by rw [h2]; simp)
      simp only at hf
      exact ⟨by rw [ht]; exact hu', Or.inr ⟨by rw [ht]; exact hc, by rw [h2, hf]⟩⟩
  · have h0 : (build_list b0)._list =
        forest_rows (build_list b0)._expanded_items 0 (build_list b0)._tree.items := by
      rw [build_list_list, forest_rows_isEmpty _ _ _ hc]
      rfl
    obtain ⟨h1, h2⟩ := toggles_forest sels (build_list b0) b hu' h0 hrun
    have ht : b._tree = b0._tree := h1
    exact ⟨by rw [ht]; exact hu', Or.inl ⟨by rw [ht]; exact hc, h2⟩⟩

/-- C3, counterexample: for the directory `/e` without children and the set holding `/e`,
`build_list` makes the placeholder row, a directory row under the selection, not marked
expanded; two `toggle` calls on it give back that row, and the set no longer holds
`/e`. -/
theorem toggle_twice_drops_root_path :
    (toggles (build_list (fresh_browser empty_tree {"/e".toList} 0)) []).map
      (fun b => (b._list.map (fun r => (r.indent, r.expanded, r.entry.is_directory)),
        b._selection, decide ("/e".toList ∈ b._expanded_items))) =
      some ([(0, false, true)], 0, true) ∧
    ((toggle (build_list (fresh_browser empty_tree {"/e".toList} 0))).bind toggle).map
      (fun b => (b._list.map (fun r => (r.indent, r.expanded, r.entry.is_directory)),
        b._selection, decide ("/e".toList ∈ b._expanded_items))) =
      some ([(0, false, true)], 0, false) := by
  constructor <;> rfl

/-- C3, amended: on a tree with distinct paths, in every state that `build_list` and any
sequence of `toggle` calls produce and for every directory row, two `toggle` calls in a row
with the selection on that row both return and give back the same list and the same
expansion-state set (and tree, the selection still on the row), provided the root has a
child, or the root's path is not in the initial set, or the flag of every row of the state
says whether its path is in the set. When the row was expanded, the rows taken out by the
first call are the rows put back, at the same place, by the second. -/
theorem toggle_twice_restores (b0 : Browser) (sels : List Nat) (b : Browser) (s : Nat)
    (r : row_t)
    (hu : (tree_paths b0._tree).Nodup)
    (hroot : b0._tree.items ≠ [] ∨ b0._tree.path ∉ b0._expanded_items ∨
      ∀ x ∈ b._list, x.expanded = decide (x.entry.path ∈ b._expanded_items))
    (hrun : toggles (build_list b0) sels = some b)
    (hr : b._list[s]? = some r)
    (hd : r.entry.is_directory = true) :
    ∃ b1 b2, toggle { b with _selection := s } = some b1 ∧ toggle b1 = some b2 ∧
      b2._list = b._list ∧ b2._expanded_items = b._expanded_items ∧
      b2._selection = s ∧ b2._tree = b._tree ∧
      (r.expanded = true → ∃ run rest,
        b._list = b._list.take s ++ r :: (run ++ rest) ∧
        b1._list = b._list.take s ++ { r with expanded := false } :: rest ∧
        b2._list = b._list.take s ++ r :: (run ++ rest)) := by
  obtain ⟨hu', hcons⟩ := toggles_consistent b0 sels b hu hroot hrun
  exact toggle_twice_consistent { b with _selection := s } r hu' hcons hr hd

/-- C3, witness: on `nested_tree` with `/r/a` and `/r/a/s` expanded, after the toggle that
collapses s (rows a, x, s, b), two toggles on row 0 collapse a and expand it again and
give back the four rows. On the directory `/e` without children, with `/e` in the initial
set, after one toggle (the placeholder row marked expanded, `/e` in the set) two more
toggles give back that row and that set. -/
theorem toggle_twice_restores_witness :
    (tree_paths (fresh_browser nested_tree {"/r/a".toList, "/r/a/s".toList} 0)._tree).Nodup ∧
    (fresh_browser nested_tree {"/r/a".toList, "/r/a/s".toList} 0)._tree.items ≠ [] ∧
    nested_dir.is_directory = true ∧
    (∃ b, toggles (build_list (fresh_browser nested_tree {"/r/a".toList, "/r/a/s".toList} 0))
        [2] = some b ∧
      b._list[0]? = some ⟨0, true, nested_dir⟩ ∧
      ∃ b1 b2, toggle { b with _selection := 0 } = some b1 ∧ toggle b1 = some b2 ∧
        b2._list = b._list ∧ b2._expanded_items = b._expanded_items ∧
        b2._selection = 0 ∧ b2._tree = b._tree ∧
        ((⟨0, true, nested_dir⟩ : row_t).expanded = true → ∃ run rest,
          b._list = b._list.take 0 ++ ⟨0, true, nested_dir⟩ :: (run ++ rest) ∧
          b1._list = b._list.take 0 ++ ⟨0, false, nested_dir⟩ :: rest ∧
          b2._list = b._list.take 0 ++ ⟨0, true, nested_dir⟩ :: (run ++ rest))) ∧
    (∃ b, toggles (build_list (fresh_browser empty_tree {"/e".toList} 0)) [0] = some b ∧
      (∀ x ∈ b._list, x.expanded = decide (x.entry.path ∈ b._expanded_items)) ∧
      b._list[0]? = some ⟨0, true, empty_tree⟩ ∧
      ∃ b1 b2, toggle { b with _selection := 0 } = some b1 ∧ toggle b1 = some b2 ∧
        b2._list = b._list ∧ b2._expanded_items = b._expanded_items ∧
        b2._selection = 0 ∧ b2._tree = b._tree) := by
  have hs : (toggles (build_list
      (fresh_browser nested_tree {"/r/a".toList, "/r/a/s".toList} 0)) [2]).isSome = true := by
    decide
  have hu : (tree_paths
      (fresh_browser nested_tree {"/r/a".toList, "/r/a/s".toList} 0)._tree).Nodup := by
    decide
  have hc : (fresh_browser nested_tree {"/r/a".toList, "/r/a/s".toList} 0)._tree.items ≠ [] :=
    List.cons_ne_nil _ _
  have hd : nested_dir.is_directory = true := by decide
  obtain ⟨b, hb⟩ := Option.isSome_iff_exists.mp hs
  have h1 : (toggles (build_list
      (fresh_browser nested_tree {"/r/a".toList, "/r/a/s".toList} 0)) [2]).map
      (fun x => x._list[0]?) = some (some ⟨0, true, nested_dir⟩) := by rfl
  rw [hb] at h1
  have hr : b._list[0]? = some ⟨0, true, nested_dir⟩ := by simpa using h1
  have hs2 : (toggles (build_list (fresh_browser empty_tree {"/e".toList} 0)) [0]).isSome
      = true := by decide
  obtain ⟨c, hcb⟩ := Option.isSome_iff_exists.mp hs2
  have hu2 : (tree_paths (fresh_browser empty_tree {"/e".toList} 0)._tree).Nodup := by decide
  have h2 : (toggles (build_list (fresh_browser empty_tree {"/e".toList} 0)) [0]).map
      (fun x => x._list[0]?) = some (some ⟨0, true, empty_tree⟩) := by rfl
  rw [hcb] at h2
  have hr2 : c._list[0]? = some ⟨0, true, empty_tree⟩ := by simpa using h2
  have h3 : (toggles (build_list (fresh_browser empty_tree {"/e".toList} 0)) [0]).map
      (fun x => decide (∀ y ∈ x._list,
        y.expanded = decide (y.entry.path ∈ x._expanded_items))) = some true := by decide
  rw [hcb] at h3
  have hflag : ∀ y ∈ c._list, y.expanded = decide (y.entry.path ∈ c._expanded_items) := by
    simpa using h3
  have hd2 : (⟨0, true, empty_tree⟩ : row_t).entry.is_directory = true := by decide
  refine ⟨hu, hc, hd, ⟨b, hb, hr,
    toggle_twice_restores (fresh_browser nested_tree {"/r/a".toList, "/r/a/s".toList} 0)
      [2] b 0 ⟨0, true, nested_dir⟩ hu (Or.inl hc) hb hr hd⟩, c, hcb, hflag, hr2, ?_⟩
  obtain ⟨b1, b2, t1, t2, t3, t4, t5, t6, _⟩ :=
    toggle_twice_restores (fresh_browser empty_tree {"/e".toList} 0) [0] c 0
      ⟨0, true, empty_tree⟩ hu2 (Or.inr (Or.inr hflag)) hcb hr2 hd2
  exact ⟨b1, b2, t1, t2, t3, t4, t5, t6⟩

end Ozette
